import Mathlib

/-!
Shallow embedding of the caching subsystem of `src/ai_ml_engine/caching_system.py`
(the `LRUCache` class, the `MedicalCacheManager` with its five regions and
statistics, the `_generate_cache_key` key builder, and the `cache_memoize`
decorator), together with theorems settling the specification claims.

Modelling conventions:
* Python `time.time()` floats are modelled as integer timestamps (`ℤ`): the
  code only ever compares time differences against integer TTLs, so any
  linearly ordered time domain behaves identically; each cache operation
  receives the current wall-clock time `now` as an explicit argument (the
  spec itself stipulates a single `now` sample per operation).
* A Python value (`Any`) is modelled by `PyVal`; `PyVal.none` models `None`.
  `LRUCache.get` returns `PyVal.none` both for an absent/expired key and for
  a stored `None`, exactly as the Python code returns the value `None` in
  both cases.
* The pair of parallel dicts `self.cache` / `self.access_times` (always
  updated in lockstep on the same key set) is modelled as one association
  list of `Entry` records in insertion order; dict-key uniqueness means the
  list never holds two entries with the same key along reachable states, and
  every operation below treats the first occurrence of a key as the binding.
* `min(self.access_times.keys(), key=...)` on an empty dict raises
  `ValueError`; `LRUCache.put` therefore returns an `Option`, `none` being
  that error (reachable only when `capacity = 0`).
* The `threading.Lock` critical sections are irrelevant to the sequential
  functional claims and are not modelled.
-/

namespace CuraVox

/-- A cached Python value; `PyVal.none` models the Python value `None`. -/
inductive PyVal where
  | none
  | str (s : String)
deriving DecidableEq, Repr

/-- One cache binding: dict key, stored value (`self.cache[key]`) and its
last access time (`self.access_times[key]`). -/
structure Entry where
  key : String
  value : PyVal
  atime : ℤ
deriving DecidableEq, Repr

/-- The `LRUCache` object state: `capacity`, `ttl`, and the bindings of the
two lock-stepped dicts `cache` / `access_times`, in insertion order. -/
structure LRUCache where
  capacity : ℕ
  ttl : ℤ
  entries : List Entry
deriving DecidableEq, Repr

/-- Dict lookup: the first (in a reachable state, the only) binding of `k`. -/
def findEntry : List Entry → String → Option Entry
  | [], _ => none
  | e :: es, k => if e.key = k then some e else findEntry es k

/-- Dict deletion `del cache[key]; del access_times[key]`: drop the binding
of `k` (on reachable, duplicate-free states this is exactly one entry). -/
def eraseKey : List Entry → String → List Entry
  | [], _ => []
  | e :: es, k => if e.key = k then eraseKey es k else e :: eraseKey es k

/-- Overwrite the binding of `k` in place with value `v` and access time
`t` (`cache[key] = value; access_times[key] = now` on a present key). -/
def setEntry : List Entry → String → PyVal → ℤ → List Entry
  | [], _, _, _ => []
  | e :: es, k, v, t => if e.key = k then ⟨k, v, t⟩ :: es else e :: setEntry es k v t

/-- Refresh the access time of the binding of `k` to `t`, keeping its value
(`access_times[key] = time.time()` in `get`). -/
def refreshAt : List Entry → String → ℤ → List Entry
  | [], _, _ => []
  | e :: es, k, t => if e.key = k then ⟨k, e.value, t⟩ :: es else e :: refreshAt es k t

/-- Dict assignment `cache[key] = value; access_times[key] = now`:
overwrite in place when `k` is bound, else append a fresh binding. -/
def insertEntry (es : List Entry) (k : String) (v : PyVal) (t : ℤ) : List Entry :=
  if (findEntry es k).isSome then setEntry es k v t else es ++ [⟨k, v, t⟩]

/-- `min(access_times.keys(), key=lambda k: access_times[k])`: the first
entry (in insertion order) attaining the minimum access time. -/
def oldestEntry : List Entry → Option Entry
  | [] => none
  | e :: es =>
    match oldestEntry es with
    | none => some e
    | some e' => if e.atime ≤ e'.atime then some e else some e'

/-- `LRUCache.get`: absent key returns `None`; a binding older than `ttl`
is deleted and `None` returned (lazy expiration); otherwise the access time
is refreshed to `now` and the stored value returned. -/
def LRUCache.get (c : LRUCache) (k : String) (now : ℤ) : PyVal × LRUCache :=
  match findEntry c.entries k with
  | none => (PyVal.none, c)
  | some e =>
    if c.ttl < now - e.atime then
      (PyVal.none, { c with entries := eraseKey c.entries k })
    else
      (e.value, { c with entries := refreshAt c.entries k now })

/-- `LRUCache.put`: when `len(cache) >= capacity`, the minimum-access-time
entry is found (`min` of an empty dict raises `ValueError`, modelled as
`Option.none`) and removed only if it is itself expired; the new binding is
then written unconditionally with access time `now`. -/
def LRUCache.put (c : LRUCache) (k : String) (v : PyVal) (now : ℤ) :
    Option LRUCache :=
  if c.capacity ≤ c.entries.length then
    match oldestEntry c.entries with
    | none => none
    | some e =>
      let base := if c.ttl < now - e.atime then eraseKey c.entries e.key else c.entries
      some { c with entries := insertEntry base k v now }
  else
    some { c with entries := insertEntry c.entries k v now }

/-- `LRUCache.clear`: `cache.clear(); access_times.clear()`. -/
def LRUCache.clear (c : LRUCache) : LRUCache :=
  { c with entries := [] }

/-! ### Association-list lemmas -/

theorem findEntry_key {es : List Entry} {k : String} {e : Entry}
    (h : findEntry es k = some e) : e.key = k := by
  induction es with
  | nil => simp [findEntry] at h
  | cons a es ih =>
    by_cases hk : a.key = k
    · simp [findEntry, hk] at h; rw [← h]; exact hk
    · simp [findEntry, hk] at h; exact ih h

theorem findEntry_eraseKey_self (es : List Entry) (k : String) :
    findEntry (eraseKey es k) k = none := by
  induction es with
  | nil => rfl
  | cons a es ih =>
    by_cases hk : a.key = k
    · simpa [eraseKey, hk] using ih
    · simpa [eraseKey, findEntry, hk] using ih

theorem findEntry_eraseKey_ne (es : List Entry) {k k' : String}
    (h : k' ≠ k) : findEntry (eraseKey es k) k' = findEntry es k' := by
  induction es with
  | nil => rfl
  | cons a es ih =>
    by_cases hk : a.key = k
    · have ha : ¬ a.key = k' := fun hc => h ((hc ▸ hk : k' = k))
      simp only [eraseKey, if_pos hk, findEntry, if_neg ha]
      exact ih
    · by_cases hk' : a.key = k'
      · simp only [eraseKey, if_neg hk, findEntry, if_pos hk']
      · simp only [eraseKey, if_neg hk, findEntry, if_neg hk']
        exact ih

theorem findEntry_setEntry_self {es : List Entry} {k : String}
    (h : (findEntry es k).isSome) (v : PyVal) (t : ℤ) :
    findEntry (setEntry es k v t) k = some ⟨k, v, t⟩ := by
  induction es with
  | nil => simp [findEntry] at h
  | cons a es ih =>
    by_cases hk : a.key = k
    · simp [setEntry, findEntry, hk]
    · simp [setEntry, findEntry, hk] at *
      exact ih h

theorem findEntry_setEntry_ne (es : List Entry) {k k' : String}
    (h : k' ≠ k) (v : PyVal) (t : ℤ) :
    findEntry (setEntry es k v t) k' = findEntry es k' := by
  induction es with
  | nil => rfl
  | cons a es ih =>
    by_cases hk : a.key = k
    · have : k ≠ k' := fun hc => h hc.symm
      simp [setEntry, findEntry, hk, this]
    · by_cases hk' : a.key = k'
      · simp only [setEntry, if_neg hk, findEntry, if_pos hk']
      · simp only [setEntry, if_neg hk, findEntry, if_neg hk']
        exact ih

theorem length_setEntry (es : List Entry) (k : String) (v : PyVal) (t : ℤ) :
    (setEntry es k v t).length = es.length := by
  induction es with
  | nil => rfl
  | cons a es ih =>
    by_cases hk : a.key = k
    · simp [setEntry, hk]
    · simp [setEntry, hk, ih]

theorem findEntry_append_of_none {es : List Entry} {k : String}
    (h : findEntry es k = none) (tl : List Entry) :
    findEntry (es ++ tl) k = findEntry tl k := by
  induction es with
  | nil => rfl
  | cons a es ih =>
    by_cases hk : a.key = k
    · simp [findEntry, hk] at h
    · simp [findEntry, hk] at *
      exact ih h

theorem findEntry_insertEntry_self (es : List Entry) (k : String)
    (v : PyVal) (t : ℤ) :
    findEntry (insertEntry es k v t) k = some ⟨k, v, t⟩ := by
  unfold insertEntry
  by_cases h : (findEntry es k).isSome
  · simp [h, findEntry_setEntry_self h v t]
  · have hn : findEntry es k = none := by
      cases hf : findEntry es k with
      | none => rfl
      | some e => rw [hf] at h; simp at h
    simp [h, findEntry_append_of_none hn, findEntry]

theorem findEntry_append_ne (es : List Entry) {k k' : String}
    (h : k' ≠ k) (v : PyVal) (t : ℤ) :
    findEntry (es ++ [⟨k, v, t⟩]) k' = findEntry es k' := by
  induction es with
  | nil =>
    have : ¬ k = k' := fun hc => h hc.symm
    simp [findEntry, this]
  | cons a es ih =>
    by_cases hk' : a.key = k'
    · simp only [List.cons_append, findEntry, if_pos hk']
    · simp only [List.cons_append, findEntry, if_neg hk']
      exact ih

theorem findEntry_insertEntry_ne (es : List Entry) {k k' : String}
    (h : k' ≠ k) (v : PyVal) (t : ℤ) :
    findEntry (insertEntry es k v t) k' = findEntry es k' := by
  unfold insertEntry
  by_cases hs : (findEntry es k).isSome
  · simp [hs, findEntry_setEntry_ne es h v t]
  · simp [hs, findEntry_append_ne es h v t]

theorem length_insertEntry (es : List Entry) (k : String) (v : PyVal) (t : ℤ) :
    (insertEntry es k v t).length =
      if (findEntry es k).isSome then es.length else es.length + 1 := by
  unfold insertEntry
  by_cases h : (findEntry es k).isSome
  · simp [h, length_setEntry]
  · simp [h]

theorem findEntry_refreshAt_self {es : List Entry} {k : String} {e : Entry}
    (h : findEntry es k = some e) (t : ℤ) :
    findEntry (refreshAt es k t) k = some ⟨k, e.value, t⟩ := by
  induction es with
  | nil => simp [findEntry] at h
  | cons a es ih =>
    by_cases hk : a.key = k
    · simp [findEntry, hk] at h
      simp [refreshAt, findEntry, hk, ← h]
    · simp [refreshAt, findEntry, hk] at *
      exact ih h

theorem findEntry_refreshAt_ne (es : List Entry) {k k' : String}
    (h : k' ≠ k) (t : ℤ) :
    findEntry (refreshAt es k t) k' = findEntry es k' := by
  induction es with
  | nil => rfl
  | cons a es ih =>
    by_cases hk : a.key = k
    · have : k ≠ k' := fun hc => h hc.symm
      simp [refreshAt, findEntry, hk, this]
    · by_cases hk' : a.key = k'
      · simp only [refreshAt, if_neg hk, findEntry, if_pos hk']
      · simp only [refreshAt, if_neg hk, findEntry, if_neg hk']
        exact ih

theorem oldestEntry_none {es : List Entry} (h : oldestEntry es = none) :
    es = [] := by
  cases es with
  | nil => rfl
  | cons a es =>
    exfalso
    cases ho : oldestEntry es with
    | none => simp only [oldestEntry, ho] at h; cases h
    | some e' =>
      simp only [oldestEntry, ho] at h
      by_cases hle : a.atime ≤ e'.atime
      · rw [if_pos hle] at h; cases h
      · rw [if_neg hle] at h; cases h

theorem oldestEntry_mem {es : List Entry} {e : Entry}
    (h : oldestEntry es = some e) : e ∈ es := by
  induction es generalizing e with
  | nil => simp [oldestEntry] at h
  | cons a es ih =>
    cases ho : oldestEntry es with
    | none =>
      simp only [oldestEntry, ho] at h
      injection h with h2
      subst h2
      exact List.mem_cons_self a es
    | some e' =>
      simp only [oldestEntry, ho] at h
      by_cases hle : a.atime ≤ e'.atime
      · rw [if_pos hle] at h
        injection h with h2
        subst h2
        exact List.mem_cons_self a es
      · rw [if_neg hle] at h
        injection h with h2
        subst h2
        exact List.mem_cons_of_mem a (ih ho)

theorem oldestEntry_min {es : List Entry} {e : Entry}
    (h : oldestEntry es = some e) : ∀ e' ∈ es, e.atime ≤ e'.atime := by
  induction es generalizing e with
  | nil => simp [oldestEntry] at h
  | cons a es ih =>
    intro x hx
    cases ho : oldestEntry es with
    | none =>
      have hnil := oldestEntry_none ho
      subst hnil
      simp only [oldestEntry] at h
      injection h with h2
      subst h2
      have hxa := List.mem_singleton.mp hx
      subst hxa
      exact le_refl _
    | some e' =>
      simp only [oldestEntry, ho] at h
      by_cases hle : a.atime ≤ e'.atime
      · rw [if_pos hle] at h
        injection h with h2
        subst h2
        rcases List.mem_cons.mp hx with rfl | hxs
        · exact le_refl _
        · exact le_trans hle (ih ho x hxs)
      · rw [if_neg hle] at h
        injection h with h2
        subst h2
        rcases List.mem_cons.mp hx with rfl | hxs
        · exact le_of_lt (lt_of_not_le hle)
        · exact ih ho x hxs

/-! ### Claim C1: a full cache with an unexpired oldest entry still inserts -/

/-- C1: for a cache region at or above capacity whose minimum-`lastAccessTime`
entry is not yet expired (`now - lastAccessTime ≤ ttl`), `put` removes no
entry and still inserts (or overwrites) the new entry with
`lastAccessTime = now`; insertion does not fail, and the entry count grows
past `capacity` whenever the key is fresh. -/
theorem put_full_unexpired_inserts_without_eviction (c : LRUCache) (k : String)
    (v : PyVal) (now : ℤ) (e : Entry)
    (hfull : c.capacity ≤ c.entries.length)
    (hold : oldestEntry c.entries = some e)
    (hfresh : now - e.atime ≤ c.ttl) :
    c.put k v now = some { c with entries := insertEntry c.entries k v now } ∧
    findEntry (insertEntry c.entries k v now) k = some ⟨k, v, now⟩ ∧
    (∀ k', k' ≠ k →
      findEntry (insertEntry c.entries k v now) k' = findEntry c.entries k') ∧
    (insertEntry c.entries k v now).length =
      (if (findEntry c.entries k).isSome then c.entries.length
       else c.entries.length + 1) := by
  refine ⟨?_, findEntry_insertEntry_self _ _ _ _,
    fun k' h => findEntry_insertEntry_ne _ h _ _, length_insertEntry _ _ _ _⟩
  unfold LRUCache.put
  rw [if_pos hfull, hold]
  have hne : ¬ c.ttl < now - e.atime := not_lt.mpr hfresh
  simp [hne]

/-- The end-to-end scenario of spec §8: capacity 2, ttl 60, entries `A`
(accessed at 2) and `B` (accessed at 1); `put C` at time 3. -/
def demoCache : LRUCache :=
  ⟨2, 60, [⟨"A", PyVal.str "1", 2⟩, ⟨"B", PyVal.str "2", 1⟩]⟩

/-- The oldest-access entry of `demoCache`. -/
def demoOldest : Entry := ⟨"B", PyVal.str "2", 1⟩

theorem put_full_unexpired_witness :
    (demoCache.capacity ≤ demoCache.entries.length ∧
      oldestEntry demoCache.entries = some demoOldest ∧
      (3 : ℤ) - demoOldest.atime ≤ demoCache.ttl) ∧
    demoCache.put "C" (PyVal.str "3") 3 =
      some { demoCache with
              entries := insertEntry demoCache.entries "C" (PyVal.str "3") 3 } ∧
    findEntry (insertEntry demoCache.entries "C" (PyVal.str "3") 3) "C" =
      some ⟨"C", PyVal.str "3", 3⟩ ∧
    findEntry (insertEntry demoCache.entries "C" (PyVal.str "3") 3) "A" =
      findEntry demoCache.entries "A" ∧
    (insertEntry demoCache.entries "C" (PyVal.str "3") 3).length = 3 :=
  ⟨⟨by decide, by decide, by decide⟩,
    (put_full_unexpired_inserts_without_eviction demoCache "C" (PyVal.str "3") 3
      demoOldest (by decide) (by decide) (by decide)).1,
    (put_full_unexpired_inserts_without_eviction demoCache "C" (PyVal.str "3") 3
      demoOldest (by decide) (by decide) (by decide)).2.1,
    (put_full_unexpired_inserts_without_eviction demoCache "C" (PyVal.str "3") 3
      demoOldest (by decide) (by decide) (by decide)).2.2.1 "A" (by decide),
    by decide⟩

/-! ### Claim C3: the three cases of `get`, and its frame property -/

/-- C3: `get` on an absent key returns not-found (`None`) and leaves the map
unchanged; on a key whose entry is strictly older than `ttl` it deletes the
entry and returns not-found; otherwise it returns the stored value and
refreshes `lastAccessTime` to `now`.  In every case all other keys are
untouched (expiration is discovered only by the access, never swept). -/
theorem get_characterization (c : LRUCache) (k : String) (now : ℤ) :
    (findEntry c.entries k = none → c.get k now = (PyVal.none, c)) ∧
    (∀ e, findEntry c.entries k = some e → c.ttl < now - e.atime →
      c.get k now = (PyVal.none, { c with entries := eraseKey c.entries k }) ∧
      findEntry (eraseKey c.entries k) k = none ∧
      (∀ k', k' ≠ k →
        findEntry (eraseKey c.entries k) k' = findEntry c.entries k')) ∧
    (∀ e, findEntry c.entries k = some e → now - e.atime ≤ c.ttl →
      c.get k now =
        (e.value, { c with entries := refreshAt c.entries k now }) ∧
      findEntry (refreshAt c.entries k now) k = some ⟨k, e.value, now⟩ ∧
      (∀ k', k' ≠ k →
        findEntry (refreshAt c.entries k now) k' = findEntry c.entries k')) := by
  refine ⟨fun h => ?_, fun e he hexp => ⟨?_, findEntry_eraseKey_self _ _,
      fun k' h' => findEntry_eraseKey_ne _ h'⟩,
    fun e he hfresh => ⟨?_, findEntry_refreshAt_self he now,
      fun k' h' => findEntry_refreshAt_ne _ h' now⟩⟩
  · unfold LRUCache.get
    rw [h]
  · unfold LRUCache.get
    rw [he]
    simp only [if_pos hexp]
  · unfold LRUCache.get
    rw [he]
    simp only [if_neg (not_lt.mpr hfresh)]

/-- A one-entry cache, fresh at access time 5 (ttl 10). -/
def getDemoCache : LRUCache := ⟨3, 10, [⟨"k", PyVal.str "v", 0⟩]⟩

/-- The same cache observed at time 11, when its entry has expired. -/
def getDemoEntry : Entry := ⟨"k", PyVal.str "v", 0⟩

theorem get_characterization_witness :
    (findEntry getDemoCache.entries "k" = some getDemoEntry ∧
      (5 : ℤ) - getDemoEntry.atime ≤ getDemoCache.ttl ∧
      getDemoCache.ttl < (11 : ℤ) - getDemoEntry.atime ∧
      findEntry getDemoCache.entries "absent" = none) ∧
    getDemoCache.get "k" 5 =
      (getDemoEntry.value,
        { getDemoCache with entries := refreshAt getDemoCache.entries "k" 5 }) ∧
    getDemoCache.get "k" 11 =
      (PyVal.none,
        { getDemoCache with entries := eraseKey getDemoCache.entries "k" }) ∧
    findEntry (eraseKey getDemoCache.entries "k") "k" = none ∧
    getDemoCache.get "absent" 5 = (PyVal.none, getDemoCache) :=
  ⟨⟨by decide, by decide, by decide, by decide⟩,
    ((get_characterization getDemoCache "k" 5).2.2 getDemoEntry
      (by decide) (by decide)).1,
    ((get_characterization getDemoCache "k" 11).2.1 getDemoEntry
      (by decide) (by decide)).1,
    ((get_characterization getDemoCache "k" 11).2.1 getDemoEntry
      (by decide) (by decide)).2.1,
    (get_characterization getDemoCache "absent" 5).1 (by decide)⟩

/-! ### Claim C4: the eviction candidate is a minimum-access-time entry -/

/-- C4: on a cache at or above capacity, the entry `put` considers for
eviction is one with globally minimal `lastAccessTime`; the only key a
`put` can remove (besides overwriting `k` itself) is that candidate's key,
and only when the candidate is expired; and conversely, when the candidate
*is* expired `put` does remove it (its old binding disappears — it is
replaced by the fresh entry when its key happens to be `k` itself,
and gone entirely otherwise). -/
theorem put_eviction_candidate_minimal (c : LRUCache) (k : String) (v : PyVal)
    (now : ℤ) (e : Entry)
    (hfull : c.capacity ≤ c.entries.length)
    (hold : oldestEntry c.entries = some e) :
    (e ∈ c.entries ∧ ∀ x ∈ c.entries, e.atime ≤ x.atime) ∧
    (∀ c', c.put k v now = some c' → ∀ k', k' ≠ k →
      findEntry c.entries k' ≠ none → findEntry c'.entries k' = none →
      k' = e.key ∧ c.ttl < now - e.atime) ∧
    (∀ c', c.put k v now = some c' → c.ttl < now - e.atime →
      findEntry c'.entries e.key =
        (if e.key = k then some ⟨e.key, v, now⟩ else none)) := by
  refine ⟨⟨oldestEntry_mem hold, oldestEntry_min hold⟩, ?_, ?_⟩
  · intro c' hput k' hkk' hbefore hafter
    unfold LRUCache.put at hput
    rw [if_pos hfull, hold] at hput
    by_cases hexp : c.ttl < now - e.atime
    · simp only [if_pos hexp] at hput
      injection hput with hput
      subst hput
      dsimp only at hafter
      by_cases hke : k' = e.key
      · exact ⟨hke, hexp⟩
      · exfalso
        rw [findEntry_insertEntry_ne (eraseKey c.entries e.key) hkk' v now,
          findEntry_eraseKey_ne c.entries hke] at hafter
        exact hbefore hafter
    · simp only [if_neg hexp] at hput
      injection hput with hput
      subst hput
      dsimp only at hafter
      rw [findEntry_insertEntry_ne c.entries hkk' v now] at hafter
      exact absurd hafter hbefore
  · intro c' hput hexp
    unfold LRUCache.put at hput
    rw [if_pos hfull, hold] at hput
    simp only [if_pos hexp] at hput
    injection hput with hput
    subst hput
    dsimp only
    by_cases hek : e.key = k
    · rw [if_pos hek, hek]
      exact findEntry_insertEntry_self _ _ _ _
    · rw [if_neg hek, findEntry_insertEntry_ne (eraseKey c.entries e.key) hek v now]
      exact findEntry_eraseKey_self c.entries e.key

/-- A full cache whose oldest entry (`B`, last accessed at 0) is expired by
`put` time 100 under ttl 60, while `A` is fresh. -/
def evictDemoCache : LRUCache :=
  ⟨2, 60, [⟨"A", PyVal.str "1", 90⟩, ⟨"B", PyVal.str "2", 0⟩]⟩

/-- The expired oldest-access entry of `evictDemoCache`. -/
def evictDemoOldest : Entry := ⟨"B", PyVal.str "2", 0⟩

/-- The cache after `put C` at time 100: `B` has been evicted. -/
def evictDemoAfter : LRUCache :=
  (evictDemoCache.put "C" (PyVal.str "3") 100).getD evictDemoCache

theorem put_eviction_candidate_witness :
    (evictDemoCache.capacity ≤ evictDemoCache.entries.length ∧
      oldestEntry evictDemoCache.entries = some evictDemoOldest ∧
      evictDemoCache.put "C" (PyVal.str "3") 100 = some evictDemoAfter ∧
      evictDemoCache.ttl < (100 : ℤ) - evictDemoOldest.atime ∧
      findEntry evictDemoCache.entries "B" ≠ none) ∧
    (evictDemoOldest ∈ evictDemoCache.entries ∧
      ∀ x ∈ evictDemoCache.entries, evictDemoOldest.atime ≤ x.atime) ∧
    findEntry evictDemoAfter.entries evictDemoOldest.key =
      (if evictDemoOldest.key = "C" then some ⟨evictDemoOldest.key, PyVal.str "3", 100⟩
       else none) ∧
    findEntry evictDemoAfter.entries "B" = none ∧
    findEntry evictDemoAfter.entries "A" = findEntry evictDemoCache.entries "A" :=
  ⟨⟨by decide, by decide, by decide, by decide, by decide⟩,
    (put_eviction_candidate_minimal evictDemoCache "C" (PyVal.str "3") 100
      evictDemoOldest (by decide) (by decide)).1,
    (put_eviction_candidate_minimal evictDemoCache "C" (PyVal.str "3") 100
      evictDemoOldest (by decide) (by decide)).2.2 evictDemoAfter
      (by decide) (by decide),
    by decide, by decide⟩

/-! ### The `MedicalCacheManager` -/

/-- The five cache regions owned by `MedicalCacheManager`. -/
inductive Region where
  | medicine
  | ocr
  | llm
  | agent
  | user_context
deriving DecidableEq, Repr

/-- The region names, exactly as `get_stats()` reports them under
`cache_sizes`. -/
def regionName : Region → String
  | .medicine => "medicine"
  | .ocr => "ocr"
  | .llm => "llm"
  | .agent => "agent"
  | .user_context => "user_context"

/-- Python's `str.lower()` (ASCII case folding), as the character-wise map
`Char.toLower` — written by structural recursion over the character list so
that concrete instances evaluate. -/
def pyLower (s : String) : String :=
  ⟨s.data.map Char.toLower⟩

/-- The full cache key each per-domain wrapper pair builds from its raw
identifier: `f"medicine:{medicine_name.lower()}"`, `f"ocr:{image_hash}"`,
`f"llm:{prompt_hash}"`, `f"agent:{query_hash}"`, `f"user:{user_id}"`. -/
def regionKey : Region → String → String
  | .medicine, s => "medicine:" ++ pyLower s
  | .ocr, s => "ocr:" ++ s
  | .llm, s => "llm:" ++ s
  | .agent, s => "agent:" ++ s
  | .user_context, s => "user:" ++ s

/-- `MedicalCacheManager` state: the five `LRUCache` instances and the
`stats` dict (`hits`, `misses`, `evictions`). -/
structure MedicalCacheManager where
  medicine_cache : LRUCache
  ocr_cache : LRUCache
  llm_cache : LRUCache
  agent_cache : LRUCache
  user_context_cache : LRUCache
  hits : ℕ
  misses : ℕ
  evictions : ℕ
deriving DecidableEq, Repr

/-- `MedicalCacheManager.__init__`: the five regions with the configured
capacities and TTLs, and zeroed statistics. -/
def initManager : MedicalCacheManager :=
  ⟨⟨500, 7200, []⟩, ⟨1000, 1800, []⟩, ⟨200, 3600, []⟩, ⟨300, 3600, []⟩,
    ⟨1000, 14400, []⟩, 0, 0, 0⟩

/-- The `LRUCache` attribute backing a region. -/
def regionCache (m : MedicalCacheManager) : Region → LRUCache
  | .medicine => m.medicine_cache
  | .ocr => m.ocr_cache
  | .llm => m.llm_cache
  | .agent => m.agent_cache
  | .user_context => m.user_context_cache

/-- Replace the `LRUCache` attribute backing a region. -/
def setRegionCache (m : MedicalCacheManager) : Region → LRUCache → MedicalCacheManager
  | .medicine, c => { m with medicine_cache := c }
  | .ocr, c => { m with ocr_cache := c }
  | .llm, c => { m with llm_cache := c }
  | .agent, c => { m with agent_cache := c }
  | .user_context, c => { m with user_context_cache := c }

/-- Common body of the five `cache_X` wrappers (`cache_medicine_info`,
`cache_ocr_result`, `cache_llm_response`, `cache_agent_response`,
`cache_user_context`): build the prefixed key and delegate to the region's
`LRUCache.put`.  No statistics are touched. -/
def putRegion (m : MedicalCacheManager) (r : Region) (id : String)
    (v : PyVal) (now : ℤ) : Option MedicalCacheManager :=
  ((regionCache m r).put (regionKey r id) v now).map (setRegionCache m r)

/-- Common body of the five `get_cached_X` wrappers: build the prefixed key,
delegate to the region's `LRUCache.get`, and record a hit when
`result is not None`, a miss otherwise. -/
def getRegion (m : MedicalCacheManager) (r : Region) (id : String)
    (now : ℤ) : PyVal × MedicalCacheManager :=
  let p := (regionCache m r).get (regionKey r id) now
  let m1 := setRegionCache m r p.2
  if p.1 = PyVal.none then (p.1, { m1 with misses := m1.misses + 1 })
  else (p.1, { m1 with hits := m1.hits + 1 })

/-- `cache_medicine_info(medicine_name, info)`. -/
def cache_medicine_info (m : MedicalCacheManager) (name : String)
    (info : PyVal) (now : ℤ) : Option MedicalCacheManager :=
  putRegion m .medicine name info now

/-- `get_cached_medicine_info(medicine_name)`. -/
def get_cached_medicine_info (m : MedicalCacheManager) (name : String)
    (now : ℤ) : PyVal × MedicalCacheManager :=
  getRegion m .medicine name now

/-- `cache_ocr_result(image_hash, result)`. -/
def cache_ocr_result (m : MedicalCacheManager) (h : String)
    (v : PyVal) (now : ℤ) : Option MedicalCacheManager :=
  putRegion m .ocr h v now

/-- `get_cached_ocr_result(image_hash)`. -/
def get_cached_ocr_result (m : MedicalCacheManager) (h : String)
    (now : ℤ) : PyVal × MedicalCacheManager :=
  getRegion m .ocr h now

/-- `cache_llm_response(prompt_hash, response)`. -/
def cache_llm_response (m : MedicalCacheManager) (h : String)
    (v : PyVal) (now : ℤ) : Option MedicalCacheManager :=
  putRegion m .llm h v now

/-- `get_cached_llm_response(prompt_hash)`. -/
def get_cached_llm_response (m : MedicalCacheManager) (h : String)
    (now : ℤ) : PyVal × MedicalCacheManager :=
  getRegion m .llm h now

/-- `cache_agent_response(query_hash, response)`. -/
def cache_agent_response (m : MedicalCacheManager) (h : String)
    (v : PyVal) (now : ℤ) : Option MedicalCacheManager :=
  putRegion m .agent h v now

/-- `get_cached_agent_response(query_hash)`. -/
def get_cached_agent_response (m : MedicalCacheManager) (h : String)
    (now : ℤ) : PyVal × MedicalCacheManager :=
  getRegion m .agent h now

/-- `cache_user_context(user_id, context)`. -/
def cache_user_context (m : MedicalCacheManager) (uid : String)
    (v : PyVal) (now : ℤ) : Option MedicalCacheManager :=
  putRegion m .user_context uid v now

/-- `get_cached_user_context(user_id)`. -/
def get_cached_user_context (m : MedicalCacheManager) (uid : String)
    (now : ℤ) : PyVal × MedicalCacheManager :=
  getRegion m .user_context uid now

/-! ### Statistics -/

/-- Round-half-to-even to an integer, the rounding Python's `round` applies
(floats are modelled as exact rationals). -/
def roundHalfEven (q : ℚ) : ℤ :=
  if q - ⌊q⌋ < 1 / 2 then ⌊q⌋
  else if 1 / 2 < q - ⌊q⌋ then ⌊q⌋ + 1
  else if ⌊q⌋ % 2 = 0 then ⌊q⌋ else ⌊q⌋ + 1

/-- `round(x, 2)`: round to two decimal places, half to even. -/
def round2 (q : ℚ) : ℚ :=
  (roundHalfEven (q * 100) : ℚ) / 100

/-- The snapshot returned by `get_stats()`. -/
structure Stats where
  total_requests : ℕ
  hits : ℕ
  misses : ℕ
  hit_rate_percent : ℚ
  size_medicine : ℕ
  size_ocr : ℕ
  size_llm : ℕ
  size_agent : ℕ
  size_user_context : ℕ
deriving DecidableEq, Repr

/-- `get_stats()`: derived totals and hit rate
(`hits / total_requests * 100` when any request happened, else `0`,
rounded to two decimals) plus per-region occupancy. -/
def get_stats (m : MedicalCacheManager) : Stats :=
  let total := m.hits + m.misses
  let hit_rate : ℚ :=
    if 0 < total then (m.hits : ℚ) / (total : ℚ) * 100 else 0
  { total_requests := total
    hits := m.hits
    misses := m.misses
    hit_rate_percent := round2 hit_rate
    size_medicine := m.medicine_cache.entries.length
    size_ocr := m.ocr_cache.entries.length
    size_llm := m.llm_cache.entries.length
    size_agent := m.agent_cache.entries.length
    size_user_context := m.user_context_cache.entries.length }

/-- `clear_all_caches()`: clear the five regions first, and only then add
`sum(len(region.cache) for region in regions)` to the eviction counter —
the sum ranges over the *already cleared* caches, so it is always `0`. -/
def clear_all_caches (m : MedicalCacheManager) : MedicalCacheManager :=
  let m1 := { m with
    medicine_cache := m.medicine_cache.clear
    ocr_cache := m.ocr_cache.clear
    llm_cache := m.llm_cache.clear
    agent_cache := m.agent_cache.clear
    user_context_cache := m.user_context_cache.clear }
  { m1 with evictions := m1.evictions +
      (m1.medicine_cache.entries.length + m1.ocr_cache.entries.length +
        m1.llm_cache.entries.length + m1.agent_cache.entries.length +
        m1.user_context_cache.entries.length) }

/-! ### Traces of manager operations -/

/-- One call through a per-domain convenience wrapper: a `cache_X` put or a
`get_cached_X` read, with the wall-clock time at which it runs. -/
inductive MOp where
  | put (r : Region) (id : String) (v : PyVal) (t : ℤ)
  | get (r : Region) (id : String) (t : ℤ)
deriving DecidableEq, Repr

/-- Execute one wrapper call. -/
def MedicalCacheManager.step (m : MedicalCacheManager) : MOp → Option MedicalCacheManager
  | .put r id v t => putRegion m r id v t
  | .get r id t => some (getRegion m r id t).2

/-- Execute a sequence of wrapper calls. -/
def runOps (m : MedicalCacheManager) : List MOp → Option MedicalCacheManager
  | [] => some m
  | op :: ops => (m.step op).bind fun m1 => runOps m1 ops

/-- Whether an operation is a read. -/
def isGet : MOp → Bool
  | .get _ _ _ => true
  | .put _ _ _ _ => false

/-- The number of `get_cached_X` calls in a trace. -/
def countGets (ops : List MOp) : ℕ := ops.countP isGet

/-- Whether the code records the operation as a hit: a get whose delegated
`LRUCache.get` result `is not None`. -/
def hitOutcome (m : MedicalCacheManager) : MOp → Bool
  | .get r id t => if (getRegion m r id t).1 = PyVal.none then false else true
  | .put _ _ _ _ => false

/-- The number of gets in a trace that return a non-`None` value (what the
code counts as hits). -/
def codeHits (m : MedicalCacheManager) : List MOp → ℕ
  | [] => 0
  | op :: ops =>
    (if hitOutcome m op then 1 else 0) +
      match m.step op with
      | some m1 => codeHits m1 ops
      | none => 0

/-- Claim C5's reading of a hit: a get that finds a present, not-yet-expired
entry under its key (whatever the stored value is). -/
def specFound (m : MedicalCacheManager) : MOp → Bool
  | .get r id t =>
    match findEntry (regionCache m r).entries (regionKey r id) with
    | some e => decide (t - e.atime ≤ (regionCache m r).ttl)
    | none => false
  | .put _ _ _ _ => false

/-- The number of gets in a trace that find a present, unexpired entry
(claim C5's `H`). -/
def specHits (m : MedicalCacheManager) : List MOp → ℕ
  | [] => 0
  | op :: ops =>
    (if specFound m op then 1 else 0) +
      match m.step op with
      | some m1 => specHits m1 ops
      | none => 0

/-! ### Manager lemmas -/

theorem setRegionCache_hits (m : MedicalCacheManager) (r : Region) (c : LRUCache) :
    (setRegionCache m r c).hits = m.hits := by
  cases r <;> rfl

theorem setRegionCache_misses (m : MedicalCacheManager) (r : Region) (c : LRUCache) :
    (setRegionCache m r c).misses = m.misses := by
  cases r <;> rfl

theorem setRegionCache_evictions (m : MedicalCacheManager) (r : Region) (c : LRUCache) :
    (setRegionCache m r c).evictions = m.evictions := by
  cases r <;> rfl

theorem regionCache_setRegionCache_ne (m : MedicalCacheManager) (c : LRUCache)
    {r r' : Region} (h : r ≠ r') :
    regionCache (setRegionCache m r c) r' = regionCache m r' := by
  cases r <;> cases r' <;> first | rfl | exact absurd rfl h

theorem regionCache_setRegionCache_self (m : MedicalCacheManager)
    (r : Region) (c : LRUCache) : regionCache (setRegionCache m r c) r = c := by
  cases r <;> rfl

theorem putRegion_stats {m m' : MedicalCacheManager} {r : Region} {id : String}
    {v : PyVal} {t : ℤ} (h : putRegion m r id v t = some m') :
    m'.hits = m.hits ∧ m'.misses = m.misses ∧ m'.evictions = m.evictions := by
  rcases Option.map_eq_some'.mp h with ⟨c, _, hm⟩
  subst hm
  exact ⟨setRegionCache_hits m r c, setRegionCache_misses m r c,
    setRegionCache_evictions m r c⟩

theorem getRegion_fst (m : MedicalCacheManager) (r : Region)
    (id : String) (t : ℤ) :
    (getRegion m r id t).1 = ((regionCache m r).get (regionKey r id) t).1 := by
  unfold getRegion
  by_cases hv : ((regionCache m r).get (regionKey r id) t).1 = PyVal.none <;>
    simp [hv]

theorem getRegion_snd_stats (m : MedicalCacheManager) (r : Region)
    (id : String) (t : ℤ) :
    ((getRegion m r id t).2).hits =
      m.hits + (if hitOutcome m (.get r id t) then 1 else 0) ∧
    ((getRegion m r id t).2).misses =
      m.misses + (if hitOutcome m (.get r id t) then 0 else 1) := by
  by_cases hv : ((regionCache m r).get (regionKey r id) t).1 = PyVal.none
  · have ho : hitOutcome m (.get r id t) = false := by
      simp [hitOutcome, getRegion_fst, hv]
    rw [ho]
    unfold getRegion
    simp [hv, setRegionCache_hits, setRegionCache_misses]
  · have ho : hitOutcome m (.get r id t) = true := by
      simp [hitOutcome, getRegion_fst, hv]
    rw [ho]
    unfold getRegion
    simp [hv, setRegionCache_hits, setRegionCache_misses]

/-- Running a trace relates the final counters to the number of gets that
returned a non-`None` value. -/
theorem runOps_stats (ops : List MOp) : ∀ m m' : MedicalCacheManager,
    runOps m ops = some m' →
    m'.hits = m.hits + codeHits m ops ∧
    m'.misses = m.misses + (countGets ops - codeHits m ops) ∧
    codeHits m ops ≤ countGets ops := by
  induction ops with
  | nil =>
    intro m m' h
    injection h with h
    subst h
    simp [codeHits, countGets]
  | cons op ops ih =>
    intro m m' h
    cases op with
    | put r id v t =>
      simp only [runOps, MedicalCacheManager.step] at h
      cases hp : putRegion m r id v t with
      | none => rw [hp] at h; cases h
      | some m1 =>
        rw [hp] at h
        simp only [Option.some_bind] at h
        rcases ih m1 m' h with ⟨h1, h2, h3⟩
        rcases putRegion_stats hp with ⟨p1, p2, _⟩
        refine ⟨?_, ?_, ?_⟩
        · rw [h1, p1]
          simp [codeHits, hitOutcome, MedicalCacheManager.step, hp]
        · rw [h2, p2]
          simp [codeHits, hitOutcome, MedicalCacheManager.step, hp, countGets,
            List.countP_cons, isGet]
        · simpa [codeHits, hitOutcome, MedicalCacheManager.step, hp, countGets,
            List.countP_cons, isGet] using h3
    | get r id t =>
      simp only [runOps, MedicalCacheManager.step, Option.some_bind] at h
      rcases ih _ m' h with ⟨h1, h2, h3⟩
      rcases getRegion_snd_stats m r id t with ⟨g1, g2⟩
      have hcode : codeHits m (MOp.get r id t :: ops) =
          (if hitOutcome m (.get r id t) then 1 else 0) +
            codeHits (getRegion m r id t).2 ops := by
        simp [codeHits, MedicalCacheManager.step]
      have hcount : countGets (MOp.get r id t :: ops) = countGets ops + 1 := by
        simp [countGets, List.countP_cons, isGet]
      refine ⟨?_, ?_, ?_⟩
      · rw [h1, g1, hcode]
        omega
      · rw [h2, g2, hcode, hcount]
        by_cases hh : hitOutcome m (.get r id t) <;> simp [hh] <;> omega
      · rw [hcode, hcount]
        by_cases hh : hitOutcome m (.get r id t) <;> simp [hh] <;> omega

/-! ### Claim C2: `clear_all_caches` and the eviction counter -/

/-- For every manager state, `clear_all_caches` empties all five regions,
leaves hits and misses unchanged — and adds exactly `0` to the eviction
counter, because the five caches are cleared before their sizes are
summed. -/
theorem clear_all_caches_spec (m : MedicalCacheManager) :
    (clear_all_caches m).evictions = m.evictions ∧
    (clear_all_caches m).hits = m.hits ∧
    (clear_all_caches m).misses = m.misses ∧
    (clear_all_caches m).medicine_cache.entries = [] ∧
    (clear_all_caches m).ocr_cache.entries = [] ∧
    (clear_all_caches m).llm_cache.entries = [] ∧
    (clear_all_caches m).agent_cache.entries = [] ∧
    (clear_all_caches m).user_context_cache.entries = [] := by
  simp [clear_all_caches, LRUCache.clear]

/-- A manager holding exactly one entry (`cache_medicine_info "a"`). -/
def c2mid : MedicalCacheManager :=
  (cache_medicine_info initManager "a" (PyVal.str "v") 0).getD initManager

/-- C2: at the failing input — a manager with one cached entry — the code's
`clear_all_caches` empties every region and leaves hits and misses alone,
but increments the eviction counter by `0`, not by the `1` entry cleared:
the sizes are summed only after the caches have been cleared. -/
theorem clear_all_evictions_stay_zero :
    cache_medicine_info initManager "a" (PyVal.str "v") 0 = some c2mid ∧
    c2mid.medicine_cache.entries.length = 1 ∧
    c2mid.evictions = 0 ∧
    (clear_all_caches c2mid).evictions = 0 ∧
    (clear_all_caches c2mid).hits = c2mid.hits ∧
    (clear_all_caches c2mid).misses = c2mid.misses ∧
    (clear_all_caches c2mid).medicine_cache.entries = [] ∧
    (clear_all_caches c2mid).ocr_cache.entries = [] ∧
    (clear_all_caches c2mid).llm_cache.entries = [] ∧
    (clear_all_caches c2mid).agent_cache.entries = [] ∧
    (clear_all_caches c2mid).user_context_cache.entries = [] := by
  decide

/-! ### Claim C5: statistics consistency over a trace -/

/-- C5 (amended): after any successful trace of wrapper calls from the fresh
manager, of whose `N` gets `H'` returned a non-`None` value, the snapshot
reports `hits = H'`, `misses = N - H'`, `total_requests = N`, and
`hit_rate_percent = round2(H'/N*100)` (`0` when `N = 0`); puts never change
the counters. -/
theorem get_stats_after_trace (ops : List MOp) (m' : MedicalCacheManager)
    (h : runOps initManager ops = some m') :
    (get_stats m').hits = codeHits initManager ops ∧
    (get_stats m').misses = countGets ops - codeHits initManager ops ∧
    (get_stats m').total_requests = countGets ops ∧
    (get_stats m').hit_rate_percent =
      (if 0 < countGets ops then
        round2 ((codeHits initManager ops : ℚ) / (countGets ops : ℚ) * 100)
      else 0) := by
  rcases runOps_stats ops initManager m' h with ⟨h1, h2, h3⟩
  have hh : m'.hits = codeHits initManager ops := by
    simpa [initManager] using h1
  have hm : m'.misses = countGets ops - codeHits initManager ops := by
    simpa [initManager] using h2
  have ht : m'.hits + m'.misses = countGets ops := by omega
  have hz : round2 0 = 0 := by norm_num [round2, roundHalfEven]
  refine ⟨?_, ?_, ?_, ?_⟩
  · simpa [get_stats] using hh
  · simpa [get_stats] using hm
  · simpa [get_stats] using ht
  · simp only [get_stats]
    rw [ht, hh]
    by_cases h0 : 0 < countGets ops
    · rw [if_pos h0, if_pos h0]
    · rw [if_neg h0, if_neg h0, hz]

/-- A witness trace: a put into the OCR region, a hit on it, and a miss. -/
def c5witOps : List MOp :=
  [.put .ocr "img" (PyVal.str "txt") 0, .get .ocr "img" 1, .get .ocr "other" 1]

/-- The final manager after `c5witOps`. -/
def c5witFinal : MedicalCacheManager :=
  (runOps initManager c5witOps).getD initManager

theorem get_stats_after_trace_witness :
    runOps initManager c5witOps = some c5witFinal ∧
    (get_stats c5witFinal).hits = codeHits initManager c5witOps ∧
    (get_stats c5witFinal).misses =
      countGets c5witOps - codeHits initManager c5witOps ∧
    (get_stats c5witFinal).total_requests = countGets c5witOps ∧
    (get_stats c5witFinal).hit_rate_percent =
      (if 0 < countGets c5witOps then
        round2 ((codeHits initManager c5witOps : ℚ) / (countGets c5witOps : ℚ) * 100)
      else 0) :=
  ⟨by decide,
    (get_stats_after_trace c5witOps c5witFinal (by decide)).1,
    (get_stats_after_trace c5witOps c5witFinal (by decide)).2.1,
    (get_stats_after_trace c5witOps c5witFinal (by decide)).2.2.1,
    (get_stats_after_trace c5witOps c5witFinal (by decide)).2.2.2⟩

/-- The counterexample trace for C5 as stated: `"a"` holds a stored `None`,
`"b"` a non-`None` value; three gets follow, of which two find a present,
unexpired entry but only one returns a non-`None` value. -/
def c5ops : List MOp :=
  [.put .medicine "a" PyVal.none 0, .put .medicine "b" (PyVal.str "v") 0,
    .get .medicine "a" 1, .get .medicine "b" 1, .get .medicine "c" 1]

/-- The final manager after `c5ops`. -/
def c5final : MedicalCacheManager :=
  (runOps initManager c5ops).getD initManager

/-- C5 (counterexample to the claim as stated): in the `c5ops` trace,
`H = 2` gets find a present, unexpired entry (`N = 3`), yet the snapshot
reports `hits = 1`, `misses = 2`, and a hit rate of `33.33` — which is
neither `H/N*100 = 200/3` nor even the exact `100/3`. -/
theorem stats_hits_found_counterexample :
    runOps initManager c5ops = some c5final ∧
    specHits initManager c5ops = 2 ∧
    countGets c5ops = 3 ∧
    (get_stats c5final).hits = 1 ∧
    (get_stats c5final).misses = 2 ∧
    (get_stats c5final).hit_rate_percent = 3333 / 100 ∧
    (3333 / 100 : ℚ) ≠ (2 : ℚ) / 3 * 100 ∧
    (3333 / 100 : ℚ) ≠ (1 : ℚ) / 3 * 100 := by
  have hh : c5final.hits = 1 := by decide
  have hm : c5final.misses = 2 := by decide
  refine ⟨by decide, by decide, by decide, by decide, by decide, ?_,
    by norm_num, by norm_num⟩
  show round2 _ = _
  rw [hh, hm] -- the snapshot's rate is computed from the final counters
  norm_num [round2, roundHalfEven]

/-! ### Claim C6: per-domain key prefixes and region isolation -/

/-- C6 (counterexample to the claim as stated): the user-context wrapper
keys `user:{user_id}` — its prefix is `"user"`, not the region's name
`"user_context"`. -/
theorem user_context_key_not_region_name :
    regionKey .user_context "x" = "user:x" ∧
    regionName .user_context = "user_context" ∧
    regionKey .user_context "x" ≠ regionName .user_context ++ (":" ++ "x") :=
  ⟨rfl, rfl, by decide⟩

/-- C6 (amended): the medicine, OCR, LLM and agent wrappers prefix exactly
their region name (the medicine one after lowercasing the raw name); the
user-context wrapper prefixes `"user"`.  Every wrapper works on its own
region's cache instance, so a put through one domain leaves every other
domain's cache — and hence what its get can return — untouched. -/
theorem region_key_isolation :
    (∀ s, regionKey .medicine s = regionName .medicine ++ (":" ++ pyLower s)) ∧
    (∀ s, regionKey .ocr s = regionName .ocr ++ (":" ++ s)) ∧
    (∀ s, regionKey .llm s = regionName .llm ++ (":" ++ s)) ∧
    (∀ s, regionKey .agent s = regionName .agent ++ (":" ++ s)) ∧
    (∀ s, regionKey .user_context s = "user" ++ (":" ++ s)) ∧
    (∀ (m m' : MedicalCacheManager) (r r' : Region) (id : String) (v : PyVal)
      (now : ℤ), r ≠ r' → putRegion m r id v now = some m' →
      regionCache m' r' = regionCache m r') := by
  refine ⟨fun s => rfl, fun s => rfl, fun s => rfl, fun s => rfl, fun s => rfl,
    ?_⟩
  intro m m' r r' id v now hne hput
  rcases Option.map_eq_some'.mp hput with ⟨c, _, hm⟩
  subst hm
  exact regionCache_setRegionCache_ne m c hne

/-- A manager after the spec's region-isolation scenario put. -/
def c6mid : MedicalCacheManager :=
  (putRegion initManager .medicine "paracetamol" (PyVal.str "infoA") 0).getD
    initManager

theorem region_key_isolation_witness :
    (Region.medicine ≠ Region.ocr ∧
      putRegion initManager .medicine "paracetamol" (PyVal.str "infoA") 0 =
        some c6mid) ∧
    regionKey .medicine "Paracetamol" =
      regionName .medicine ++ (":" ++ pyLower "Paracetamol") ∧
    regionKey .user_context "u1" = "user" ++ (":" ++ "u1") ∧
    regionCache c6mid .ocr = regionCache initManager .ocr ∧
    (get_cached_ocr_result c6mid "paracetamol" 1).1 = PyVal.none :=
  ⟨⟨by decide, by decide⟩,
    region_key_isolation.1 "Paracetamol",
    region_key_isolation.2.2.2.2.1 "u1",
    region_key_isolation.2.2.2.2.2 initManager c6mid .medicine .ocr
      "paracetamol" (PyVal.str "infoA") 0 (by decide) (by decide),
    by decide⟩

/-! ### Claims C9 and C10: wrapper-level behaviour -/

/-- A successful `put` always leaves the binding `⟨k, v, now⟩` under `k`
and never changes `ttl` or `capacity`. -/
theorem put_some_props {c c' : LRUCache} {k : String} {v : PyVal} {now : ℤ}
    (h : c.put k v now = some c') :
    findEntry c'.entries k = some ⟨k, v, now⟩ ∧
    c'.ttl = c.ttl ∧ c'.capacity = c.capacity := by
  unfold LRUCache.put at h
  by_cases hfull : c.capacity ≤ c.entries.length
  · rw [if_pos hfull] at h
    cases ho : oldestEntry c.entries with
    | none => rw [ho] at h; cases h
    | some e =>
      rw [ho] at h
      dsimp only at h
      injection h with h
      subst h
      exact ⟨findEntry_insertEntry_self _ _ _ _, rfl, rfl⟩
  · rw [if_neg hfull] at h
    injection h with h
    subst h
    exact ⟨findEntry_insertEntry_self _ _ _ _, rfl, rfl⟩

/-- C9: for every region, a put through that region's wrapper that stores
`None` leaves a present, unexpired entry whose read-back within the TTL
returns `None` — indistinguishable at the wrapper interface from the key
being absent — and the region's convenience getter (the common body
`getRegion` of the five named `get_cached_X` wrappers, as the last conjunct
identifies per region) records that lookup as a miss, never as a hit. -/
theorem stored_none_get_counts_miss (m m' : MedicalCacheManager) (r : Region)
    (id : String) (now now' : ℤ)
    (hput : putRegion m r id PyVal.none now = some m')
    (hfresh : now' - now ≤ (regionCache m r).ttl) :
    findEntry (regionCache m' r).entries (regionKey r id) =
      some ⟨regionKey r id, PyVal.none, now⟩ ∧
    (getRegion m' r id now').1 = PyVal.none ∧
    ((getRegion m' r id now').2).hits = m'.hits ∧
    ((getRegion m' r id now').2).misses = m'.misses + 1 ∧
    (getRegion m' r id now' =
      match r with
      | .medicine => get_cached_medicine_info m' id now'
      | .ocr => get_cached_ocr_result m' id now'
      | .llm => get_cached_llm_response m' id now'
      | .agent => get_cached_agent_response m' id now'
      | .user_context => get_cached_user_context m' id now') := by
  unfold putRegion at hput
  rcases Option.map_eq_some'.mp hput with ⟨c, hc, hm⟩
  subst hm
  rcases put_some_props hc with ⟨hfind, httl, _⟩
  have hrc : regionCache (setRegionCache m r c) r = c :=
    regionCache_setRegionCache_self m r c
  have hget : c.get (regionKey r id) now' =
      (PyVal.none,
        { c with entries := refreshAt c.entries (regionKey r id) now' }) := by
    unfold LRUCache.get
    rw [hfind]
    have hnl : ¬ c.ttl < now' - now := by
      rw [httl]
      exact not_lt.mpr hfresh
    simp only [if_neg hnl]
  refine ⟨by rw [hrc]; exact hfind, ?_, ?_, ?_, by cases r <;> rfl⟩ <;>
  · unfold getRegion
    rw [hrc, hget]
    simp [setRegionCache_hits, setRegionCache_misses]

/-- A manager holding a stored `None` OCR result for `img`. -/
def c9ocr : MedicalCacheManager :=
  (cache_ocr_result initManager "img" PyVal.none 0).getD initManager

/-- A manager holding a stored `None` user context for `u1`. -/
def c9usr : MedicalCacheManager :=
  (cache_user_context initManager "u1" PyVal.none 0).getD initManager

/-- A manager holding a stored `None` medicine info for `aspirin`. -/
def c9mid : MedicalCacheManager :=
  (cache_medicine_info initManager "aspirin" PyVal.none 0).getD initManager

theorem stored_none_witness :
    (cache_ocr_result initManager "img" PyVal.none 0 = some c9ocr ∧
      (1 : ℤ) - 0 ≤ (regionCache initManager .ocr).ttl ∧
      cache_user_context initManager "u1" PyVal.none 0 = some c9usr ∧
      (1 : ℤ) - 0 ≤ (regionCache initManager .user_context).ttl ∧
      cache_medicine_info initManager "aspirin" PyVal.none 0 = some c9mid ∧
      (1 : ℤ) - 0 ≤ (regionCache initManager .medicine).ttl) ∧
    (findEntry (regionCache c9ocr .ocr).entries (regionKey .ocr "img") =
        some ⟨regionKey .ocr "img", PyVal.none, 0⟩ ∧
      (get_cached_ocr_result c9ocr "img" 1).1 = PyVal.none ∧
      ((get_cached_ocr_result c9ocr "img" 1).2).hits = c9ocr.hits ∧
      ((get_cached_ocr_result c9ocr "img" 1).2).misses = c9ocr.misses + 1) ∧
    ((get_cached_user_context c9usr "u1" 1).1 = PyVal.none ∧
      ((get_cached_user_context c9usr "u1" 1).2).hits = c9usr.hits ∧
      ((get_cached_user_context c9usr "u1" 1).2).misses = c9usr.misses + 1) ∧
    ((get_cached_medicine_info c9mid "aspirin" 1).1 = PyVal.none ∧
      ((get_cached_medicine_info c9mid "aspirin" 1).2).hits = c9mid.hits ∧
      ((get_cached_medicine_info c9mid "aspirin" 1).2).misses = c9mid.misses + 1) :=
  ⟨⟨by decide, by decide, by decide, by decide, by decide, by decide⟩,
    ⟨(stored_none_get_counts_miss initManager c9ocr .ocr "img" 0 1 (by decide)
        (by decide)).1,
      (stored_none_get_counts_miss initManager c9ocr .ocr "img" 0 1 (by decide)
        (by decide)).2.1,
      (stored_none_get_counts_miss initManager c9ocr .ocr "img" 0 1 (by decide)
        (by decide)).2.2.1,
      (stored_none_get_counts_miss initManager c9ocr .ocr "img" 0 1 (by decide)
        (by decide)).2.2.2.1⟩,
    ⟨(stored_none_get_counts_miss initManager c9usr .user_context "u1" 0 1
        (by decide) (by decide)).2.1,
      (stored_none_get_counts_miss initManager c9usr .user_context "u1" 0 1
        (by decide) (by decide)).2.2.1,
      (stored_none_get_counts_miss initManager c9usr .user_context "u1" 0 1
        (by decide) (by decide)).2.2.2.1⟩,
    ⟨(stored_none_get_counts_miss initManager c9mid .medicine "aspirin" 0 1
        (by decide) (by decide)).2.1,
      (stored_none_get_counts_miss initManager c9mid .medicine "aspirin" 0 1
        (by decide) (by decide)).2.2.1,
      (stored_none_get_counts_miss initManager c9mid .medicine "aspirin" 0 1
        (by decide) (by decide)).2.2.2.1⟩⟩

theorem string_append_left_cancel {p s s' : String} (h : p ++ s = p ++ s') :
    s = s' := by
  cases p with | mk pd =>
  cases s with | mk sd =>
  cases s' with | mk sd' =>
  have hd : pd ++ sd = pd ++ sd' := congrArg String.data h
  rw [List.append_cancel_left hd]

/-- C10: the medicine wrapper pair lowercases the raw name before building
the key, so a value stored under one capitalization is read back under any
other capitalization of the same name; the OCR, LLM, agent and user-context
wrappers use the raw identifier verbatim, so distinct raw identifiers (in
particular, different capitalizations) always key distinct entries. -/
theorem medicine_wrappers_lowercase (m m' : MedicalCacheManager)
    (name name' : String) (info : PyVal) (now now' : ℤ)
    (hlow : pyLower name = pyLower name')
    (hput : cache_medicine_info m name info now = some m')
    (hfresh : now' - now ≤ m.medicine_cache.ttl) :
    (∀ s, regionKey .medicine s = "medicine:" ++ pyLower s) ∧
    (get_cached_medicine_info m' name' now').1 = info ∧
    ((∀ s, regionKey .ocr s = "ocr:" ++ s) ∧
      (∀ s, regionKey .llm s = "llm:" ++ s) ∧
      (∀ s, regionKey .agent s = "agent:" ++ s) ∧
      (∀ s, regionKey .user_context s = "user:" ++ s)) ∧
    (∀ (r : Region) (s s' : String), r ≠ Region.medicine → s ≠ s' →
      regionKey r s ≠ regionKey r s') := by
  have hkeq : regionKey Region.medicine name' = regionKey Region.medicine name := by
    simp only [regionKey]
    rw [hlow]
  unfold cache_medicine_info putRegion at hput
  rcases Option.map_eq_some'.mp hput with ⟨c, hc, hm⟩
  subst hm
  rcases put_some_props hc with ⟨hfind, httl, _⟩
  have hget : c.get (regionKey .medicine name') now' =
      (info,
        { c with entries := refreshAt c.entries (regionKey .medicine name') now' }) := by
    unfold LRUCache.get
    rw [hkeq, hfind]
    have hnl : ¬ c.ttl < now' - now := by
      rw [httl]
      exact not_lt.mpr hfresh
    simp only [if_neg hnl]
  refine ⟨fun s => rfl, ?_, ⟨fun s => rfl, fun s => rfl, fun s => rfl,
    fun s => rfl⟩, ?_⟩
  · unfold get_cached_medicine_info getRegion
    rw [show regionCache (setRegionCache m Region.medicine c) Region.medicine = c
        from rfl, hget]
    by_cases hv : info = PyVal.none <;> simp [hv]
  · intro r s s' hr hss hc'
    cases r with
    | medicine => exact hr rfl
    | ocr => exact hss (string_append_left_cancel hc')
    | llm => exact hss (string_append_left_cancel hc')
    | agent => exact hss (string_append_left_cancel hc')
    | user_context => exact hss (string_append_left_cancel hc')

/-- A manager holding `"I"` under the medicine name `Para`. -/
def c10mid : MedicalCacheManager :=
  (cache_medicine_info initManager "Para" (PyVal.str "I") 0).getD initManager

theorem medicine_wrappers_lowercase_witness :
    (pyLower "Para" = pyLower "pARA" ∧
      cache_medicine_info initManager "Para" (PyVal.str "I") 0 = some c10mid ∧
      (1 : ℤ) - 0 ≤ initManager.medicine_cache.ttl ∧
      "A" ≠ "a" ∧ Region.ocr ≠ Region.medicine) ∧
    regionKey .medicine "Para" = "medicine:" ++ pyLower "Para" ∧
    (get_cached_medicine_info c10mid "pARA" 1).1 = PyVal.str "I" ∧
    regionKey .ocr "A" ≠ regionKey .ocr "a" :=
  ⟨⟨by decide, by decide, by decide, by decide, by decide⟩,
    (medicine_wrappers_lowercase initManager c10mid "Para" "pARA"
      (PyVal.str "I") 0 1 (by decide) (by decide) (by decide)).1 "Para",
    (medicine_wrappers_lowercase initManager c10mid "Para" "pARA"
      (PyVal.str "I") 0 1 (by decide) (by decide) (by decide)).2.1,
    (medicine_wrappers_lowercase initManager c10mid "Para" "pARA"
      (PyVal.str "I") 0 1 (by decide) (by decide) (by decide)).2.2.2 .ocr "A" "a"
      (by decide) (by decide)⟩

/-! ### The cache-key builder `_generate_cache_key`

`_generate_cache_key(*args, **kwargs)` serializes
`{'args': args, 'kwargs': sorted(kwargs.items()) if kwargs else {}}` with
`json.dumps(..., sort_keys=True, default=str)` and hashes the resulting
string with SHA-256 (hex digest).  Arguments are modelled as strings (the
callers pass medicine names, hashes and user ids); the JSON serializer with
`ensure_ascii` escaping is embedded in full, while the SHA-256 digest — a
fixed function applied to the serialized payload, irrelevant to every
determinism property — is a parameter of the model. -/

/-- Lower-case hexadecimal digit. -/
def hexDig (n : ℕ) : Char :=
  if n < 10 then Char.ofNat (48 + n) else Char.ofNat (87 + n)

/-- A `\uXXXX` escape for a code unit below `0x10000`. -/
def uEsc4 (n : ℕ) : List Char :=
  ['\\', 'u', hexDig (n / 4096 % 16), hexDig (n / 256 % 16),
    hexDig (n / 16 % 16), hexDig (n % 16)]

/-- `json.dumps` (`ensure_ascii=True`) escaping of one character: `"`, `\`
and the control shorthands get two-character escapes; other control
characters and everything outside printable ASCII become `\uXXXX` (a
surrogate pair above `0xFFFF`); printable ASCII passes through. -/
def escChar (c : Char) : List Char :=
  if c = '"' then ['\\', '"']
  else if c = '\\' then ['\\', '\\']
  else if c = '\n' then ['\\', 'n']
  else if c = '\t' then ['\\', 't']
  else if c = '\r' then ['\\', 'r']
  else if c.toNat = 8 then ['\\', 'b']
  else if c.toNat = 12 then ['\\', 'f']
  else if c.toNat < 32 ∨ 127 ≤ c.toNat then
    if c.toNat < 65536 then uEsc4 c.toNat
    else uEsc4 (55296 + (c.toNat - 65536) / 1024) ++
      uEsc4 (56320 + (c.toNat - 65536) % 1024)
  else [c]

/-- The escaped body of a JSON string literal. -/
def escStr (s : String) : List Char :=
  s.data.flatMap escChar

/-- The item sequence (with closing bracket) of a JSON array of strings,
separated by `", "` as `json.dumps` does by default. -/
def strsTail : List (List Char) → List Char
  | [] => [']']
  | [x] => '"' :: (x ++ ['"', ']'])
  | x :: y :: t => '"' :: (x ++ '"' :: ',' :: ' ' :: strsTail (y :: t))

/-- A JSON array of strings (the serialization of the `args` tuple). -/
def argsEnc (args : List String) : List Char :=
  '[' :: strsTail (args.map escStr)

/-- The serialization of one `(key, value)` item tuple: a two-element JSON
array. -/
def pairEnc (kv : List Char × List Char) : List Char :=
  '[' :: '"' :: (kv.1 ++ '"' :: ',' :: ' ' :: '"' :: (kv.2 ++ ['"', ']']))

/-- The item sequence (with closing bracket) of a JSON array of item
tuples. -/
def pairsTail : List (List Char × List Char) → List Char
  | [] => [']']
  | [p] => pairEnc p ++ [']']
  | p :: q :: t => pairEnc p ++ ',' :: ' ' :: pairsTail (q :: t)

/-- Code-point lexicographic comparison of character lists — for strings
this is Python's `<` on `str` (and the component comparison of its tuple
order); written by structural recursion so concrete instances evaluate. -/
def charListLt : List Char → List Char → Bool
  | _, [] => false
  | [], _ :: _ => true
  | a :: as, b :: bs =>
    if a < b then true else if a = b then charListLt as bs else false

theorem charListLt_irrefl : ∀ l, charListLt l l = false := by
  intro l
  induction l with
  | nil => rfl
  | cons a as ih => simp [charListLt, lt_irrefl, ih]

theorem charListLt_trans : ∀ {l1 l2 l3 : List Char},
    charListLt l1 l2 = true → charListLt l2 l3 = true →
    charListLt l1 l3 = true := by
  intro l1
  induction l1 with
  | nil =>
    intro l2 l3 h1 h2
    cases l3 with
    | nil => cases l2 <;> simp [charListLt] at h2
    | cons c cs => simp [charListLt]
  | cons a as ih =>
    intro l2 l3 h1 h2
    cases l2 with
    | nil => simp [charListLt] at h1
    | cons b bs =>
      cases l3 with
      | nil => simp [charListLt] at h2
      | cons c cs =>
        simp only [charListLt] at h1 h2 ⊢
        by_cases hab : a < b
        · rw [if_pos hab] at h1
          by_cases hbc : b < c
          · simp [lt_trans hab hbc]
          · rw [if_neg hbc] at h2
            by_cases hbce : b = c
            · subst hbce
              simp [hab]
            · rw [if_neg hbce] at h2
              cases h2
        · rw [if_neg hab] at h1
          by_cases habe : a = b
          · subst habe
            rw [if_pos rfl] at h1
            by_cases hac : a < c
            · simp [hac]
            · rw [if_neg hac] at h2 ⊢
              by_cases hace : a = c
              · rw [if_pos hace] at h2 ⊢
                exact ih h1 h2
              · rw [if_neg hace] at h2
                cases h2
          · rw [if_neg habe] at h1
            cases h1

theorem charListLt_tri : ∀ (l1 l2 : List Char),
    charListLt l1 l2 = true ∨ l1 = l2 ∨ charListLt l2 l1 = true := by
  intro l1
  induction l1 with
  | nil =>
    intro l2
    cases l2 with
    | nil => exact Or.inr (Or.inl rfl)
    | cons b bs => exact Or.inl (by simp [charListLt])
  | cons a as ih =>
    intro l2
    cases l2 with
    | nil => exact Or.inr (Or.inr (by simp [charListLt]))
    | cons b bs =>
      rcases lt_trichotomy a b with h | h | h
      · exact Or.inl (by simp [charListLt, h])
      · subst h
        rcases ih bs with h2 | h2 | h2
        · exact Or.inl (by simp [charListLt, lt_irrefl, h2])
        · exact Or.inr (Or.inl (by rw [h2]))
        · exact Or.inr (Or.inr (by simp [charListLt, lt_irrefl, h2]))
      · exact Or.inr (Or.inr (by simp [charListLt, h]))

theorem charListLt_asymm {l1 l2 : List Char} (h1 : charListLt l1 l2 = true)
    (h2 : charListLt l2 l1 = true) : False := by
  have h := charListLt_trans h1 h2
  rw [charListLt_irrefl] at h
  cases h

theorem string_data_inj {s t : String} (h : s.data = t.data) : s = t := by
  cases s
  cases t
  exact congrArg String.mk h

/-- Python's string comparison, lifted to `String`. -/
def strLt (a b : String) : Bool := charListLt a.data b.data

/-- Python's tuple order on `(key, value)` pairs, used by
`sorted(kwargs.items())`. -/
def kvLe (a b : String × String) : Prop :=
  strLt a.1 b.1 = true ∨ (a.1 = b.1 ∧ (strLt a.2 b.2 = true ∨ a.2 = b.2))

instance : DecidableRel kvLe := fun a b => by
  unfold kvLe
  exact inferInstance

instance : IsTotal (String × String) kvLe where
  total a b := by
    rcases charListLt_tri a.1.data b.1.data with h | h | h
    · exact Or.inl (Or.inl h)
    · have hk : a.1 = b.1 := string_data_inj h
      rcases charListLt_tri a.2.data b.2.data with h2 | h2 | h2
      · exact Or.inl (Or.inr ⟨hk, Or.inl h2⟩)
      · exact Or.inl (Or.inr ⟨hk, Or.inr (string_data_inj h2)⟩)
      · exact Or.inr (Or.inr ⟨hk.symm, Or.inl h2⟩)
    · exact Or.inr (Or.inl h)

instance : IsTrans (String × String) kvLe where
  trans a b c hab hbc := by
    rcases hab with h1 | ⟨h1, hv1⟩
    · rcases hbc with h2 | ⟨h2, _⟩
      · exact Or.inl (charListLt_trans h1 h2)
      · refine Or.inl ?_
        rw [← h2]
        exact h1
    · rcases hbc with h2 | ⟨h2, hv2⟩
      · refine Or.inl ?_
        rw [h1]
        exact h2
      · refine Or.inr ⟨h1.trans h2, ?_⟩
        rcases hv1 with v1 | v1
        · rcases hv2 with v2 | v2
          · exact Or.inl (charListLt_trans v1 v2)
          · refine Or.inl ?_
            rw [← v2]
            exact v1
        · rcases hv2 with v2 | v2
          · refine Or.inl ?_
            rw [v1]
            exact v2
          · exact Or.inr (v1.trans v2)

instance : IsAntisymm (String × String) kvLe where
  antisymm a b hab hba := by
    rcases hab with h1 | ⟨h1, hv1⟩
    · rcases hba with h2 | ⟨h2, _⟩
      · exact (charListLt_asymm h1 h2).elim
      · exfalso
        rw [h2] at h1
        exact (charListLt_asymm h1 h1).elim
    · rcases hba with h2 | ⟨_, hv2⟩
      · exfalso
        rw [h1] at h2
        exact (charListLt_asymm h2 h2).elim
      · rcases hv1 with v1 | v1
        · rcases hv2 with v2 | v2
          · exact (charListLt_asymm v1 v2).elim
          · exfalso
            rw [v2] at v1
            exact (charListLt_asymm v1 v1).elim
        · exact Prod.ext h1 v1

/-- `sorted(kwargs.items())`. -/
def sortKW (l : List (String × String)) : List (String × String) :=
  List.insertionSort kvLe l

/-- The serialization of the `kwargs` component:
`sorted(kwargs.items()) if kwargs else {}` — a JSON array of item tuples
when non-empty, the empty JSON object when empty. -/
def kwEnc (kw : List (String × String)) : List Char :=
  if kw = [] then ['{', '}']
  else '[' :: pairsTail ((sortKW kw).map fun p => (escStr p.1, escStr p.2))

/-- The full serialized payload
`json.dumps({'args': args, 'kwargs': ...}, sort_keys=True, default=str)`. -/
def keyPayload (args : List String) (kw : List (String × String)) : String :=
  ⟨'{' :: ("\"args\": ".data ++ (argsEnc args ++
    (", \"kwargs\": ".data ++ (kwEnc kw ++ ['}']))))⟩

/-- `_generate_cache_key`: the digest of the serialized payload.  The
SHA-256 hex digest is the model parameter `digest`. -/
def generate_cache_key (digest : String → String) (args : List String)
    (kw : List (String × String)) : String :=
  digest (keyPayload args kw)

/-! ### Injectivity of the serialized payload

On printable-ASCII identifiers without `"` or `\` (every identifier the
manager actually feeds the builder), the JSON escaper is the identity, and
the payload can be split back into its components: equal payloads force
equal inputs, so two distinct inputs can only collide in the digest
itself. -/

/-- Printable ASCII other than `"` and `\`: the characters the JSON escaper
passes through unchanged. -/
def plainChar (c : Char) : Prop :=
  32 ≤ c.toNat ∧ c.toNat ≤ 126 ∧ c ≠ '"' ∧ c ≠ '\\'

instance : DecidablePred plainChar := fun c => by
  unfold plainChar
  exact inferInstance

/-- A string of plain characters. -/
def plainStr (s : String) : Prop :=
  ∀ c ∈ s.data, plainChar c

instance : DecidablePred plainStr := fun s => by
  unfold plainStr
  exact inferInstance

theorem escChar_plain {c : Char} (h : plainChar c) : escChar c = [c] := by
  obtain ⟨h1, h2, h3, h4⟩ := h
  have hn : ¬ c = '\n' := fun hc => by rw [hc] at h1; exact absurd h1 (by decide)
  have ht : ¬ c = '\t' := fun hc => by rw [hc] at h1; exact absurd h1 (by decide)
  have hr : ¬ c = '\r' := fun hc => by rw [hc] at h1; exact absurd h1 (by decide)
  have hb : ¬ c.toNat = 8 := by omega
  have hf : ¬ c.toNat = 12 := by omega
  have hrange : ¬ (c.toNat < 32 ∨ 127 ≤ c.toNat) := by omega
  simp [escChar, h3, h4, hn, ht, hr, hb, hf, hrange]

theorem flatMap_escChar_plain : ∀ {l : List Char}, (∀ c ∈ l, plainChar c) →
    l.flatMap escChar = l := by
  intro l
  induction l with
  | nil => intro _; rfl
  | cons a t ih =>
    intro hl
    rw [List.flatMap_cons, escChar_plain (hl a (List.mem_cons_self a t)),
      ih fun c hc => hl c (List.mem_cons_of_mem a hc)]
    rfl

theorem escStr_plain {s : String} (h : plainStr s) : escStr s = s.data :=
  flatMap_escChar_plain h

theorem quote_not_mem_plain {s : String} (h : plainStr s) : '"' ∉ s.data :=
  fun hm => (h _ hm).2.2.1 rfl

/-- Splitting at the first unescaped quote is unambiguous. -/
theorem split_at_quote : ∀ {x1 : List Char} {x2 r1 r2 : List Char},
    '"' ∉ x1 → '"' ∉ x2 → x1 ++ '"' :: r1 = x2 ++ '"' :: r2 →
    x1 = x2 ∧ r1 = r2 := by
  intro x1
  induction x1 with
  | nil =>
    intro x2 r1 r2 _ h2 h
    cases x2 with
    | nil =>
      refine ⟨rfl, ?_⟩
      injection h
    | cons b bs =>
      injection h with hb _
      subst hb
      exact absurd (List.mem_cons_self _ _) h2
  | cons a as ih =>
    intro x2 r1 r2 h1 h2 h
    cases x2 with
    | nil =>
      injection h with ha _
      subst ha
      exact absurd (List.mem_cons_self _ _) h1
    | cons b bs =>
      injection h with hab htail
      subst hab
      have h1' : '"' ∉ as := fun hm => h1 (List.mem_cons_of_mem _ hm)
      have h2' : '"' ∉ bs := fun hm => h2 (List.mem_cons_of_mem _ hm)
      rcases ih h1' h2' htail with ⟨he, hrr⟩
      exact ⟨by rw [he], hrr⟩

theorem strsTail_prefix_inj : ∀ (l1 l2 : List (List Char)) (r1 r2 : List Char),
    (∀ x ∈ l1, '"' ∉ x) → (∀ x ∈ l2, '"' ∉ x) →
    strsTail l1 ++ r1 = strsTail l2 ++ r2 → l1 = l2 ∧ r1 = r2 := by
  intro l1
  induction l1 with
  | nil =>
    intro l2 r1 r2 _ _ h
    cases l2 with
    | nil =>
      simp only [strsTail, List.singleton_append] at h
      injection h with _ h
      exact ⟨rfl, h⟩
    | cons x2 t2 =>
      exfalso
      cases t2 <;>
        · simp only [strsTail, List.singleton_append, List.cons_append] at h
          injection h with hc _
          exact absurd hc (by decide)
  | cons x1 t1 ih =>
    intro l2 r1 r2 hq1 hq2 h
    cases l2 with
    | nil =>
      exfalso
      cases t1 <;>
        · simp only [strsTail, List.singleton_append, List.cons_append] at h
          injection h with hc _
          exact absurd hc (by decide)
    | cons x2 t2 =>
      have hx1 : '"' ∉ x1 := hq1 x1 (List.mem_cons_self _ _)
      have hx2 : '"' ∉ x2 := hq2 x2 (List.mem_cons_self _ _)
      have ht1 : ∀ x ∈ t1, '"' ∉ x := fun x hx => hq1 x (List.mem_cons_of_mem _ hx)
      have ht2 : ∀ x ∈ t2, '"' ∉ x := fun x hx => hq2 x (List.mem_cons_of_mem _ hx)
      cases t1 with
      | nil =>
        cases t2 with
        | nil =>
          simp only [strsTail, List.cons_append, List.append_assoc] at h
          injection h with _ h
          rcases split_at_quote hx1 hx2 h with ⟨hx, hr⟩
          injection hr with _ hr
          exact ⟨by rw [hx], hr⟩
        | cons y2 t2' =>
          exfalso
          simp only [strsTail, List.cons_append, List.append_assoc] at h
          injection h with _ h
          rcases split_at_quote hx1 hx2 h with ⟨_, hr⟩
          injection hr with hc _
          exact absurd hc (by decide)
      | cons y1 t1' =>
        cases t2 with
        | nil =>
          exfalso
          simp only [strsTail, List.cons_append, List.append_assoc] at h
          injection h with _ h
          rcases split_at_quote hx1 hx2 h with ⟨_, hr⟩
          injection hr with hc _
          exact absurd hc (by decide)
        | cons y2 t2' =>
          simp only [strsTail, List.cons_append, List.append_assoc] at h
          injection h with _ h
          rcases split_at_quote hx1 hx2 h with ⟨hx, hr⟩
          injection hr with _ hr
          injection hr with _ hr
          rcases ih (y2 :: t2') r1 r2 ht1 ht2 hr with ⟨hts, hres⟩
          exact ⟨by rw [hx, hts], hres⟩

theorem pairsTail_prefix_inj :
    ∀ (l1 l2 : List (List Char × List Char)) (r1 r2 : List Char),
    (∀ p ∈ l1, '"' ∉ p.1 ∧ '"' ∉ p.2) → (∀ p ∈ l2, '"' ∉ p.1 ∧ '"' ∉ p.2) →
    pairsTail l1 ++ r1 = pairsTail l2 ++ r2 → l1 = l2 ∧ r1 = r2 := by
  intro l1
  induction l1 with
  | nil =>
    intro l2 r1 r2 _ _ h
    cases l2 with
    | nil =>
      simp only [pairsTail, List.singleton_append] at h
      injection h with _ h
      exact ⟨rfl, h⟩
    | cons p2 t2 =>
      exfalso
      cases t2 <;>
        · simp only [pairsTail, pairEnc, List.singleton_append, List.cons_append,
            List.append_assoc] at h
          injection h with hc _
          exact absurd hc (by decide)
  | cons p1 t1 ih =>
    intro l2 r1 r2 hq1 hq2 h
    cases l2 with
    | nil =>
      exfalso
      cases t1 <;>
        · simp only [pairsTail, pairEnc, List.singleton_append, List.cons_append,
            List.append_assoc] at h
          injection h with hc _
          exact absurd hc (by decide)
    | cons p2 t2 =>
      have hp1 := hq1 p1 (List.mem_cons_self _ _)
      have hp2 := hq2 p2 (List.mem_cons_self _ _)
      have ht1 : ∀ p ∈ t1, '"' ∉ p.1 ∧ '"' ∉ p.2 :=
        fun p hp => hq1 p (List.mem_cons_of_mem _ hp)
      have ht2 : ∀ p ∈ t2, '"' ∉ p.1 ∧ '"' ∉ p.2 :=
        fun p hp => hq2 p (List.mem_cons_of_mem _ hp)
      cases t1 with
      | nil =>
        cases t2 with
        | nil =>
          simp only [pairsTail, pairEnc, List.cons_append, List.append_assoc] at h
          injection h with _ h
          injection h with _ h
          rcases split_at_quote hp1.1 hp2.1 h with ⟨hk, h⟩
          injection h with _ h
          injection h with _ h
          injection h with _ h
          rcases split_at_quote hp1.2 hp2.2 h with ⟨hv, h⟩
          injection h with _ h
          injection h with _ h
          exact ⟨by rw [Prod.ext hk hv], h⟩
        | cons q2 t2' =>
          exfalso
          simp only [pairsTail, pairEnc, List.cons_append, List.append_assoc] at h
          injection h with _ h
          injection h with _ h
          rcases split_at_quote hp1.1 hp2.1 h with ⟨_, h⟩
          injection h with _ h
          injection h with _ h
          injection h with _ h
          rcases split_at_quote hp1.2 hp2.2 h with ⟨_, h⟩
          injection h with _ h
          injection h with hc _
          exact absurd hc (by decide)
      | cons q1 t1' =>
        cases t2 with
        | nil =>
          exfalso
          simp only [pairsTail, pairEnc, List.cons_append, List.append_assoc] at h
          injection h with _ h
          injection h with _ h
          rcases split_at_quote hp1.1 hp2.1 h with ⟨_, h⟩
          injection h with _ h
          injection h with _ h
          injection h with _ h
          rcases split_at_quote hp1.2 hp2.2 h with ⟨_, h⟩
          injection h with _ h
          injection h with hc _
          exact absurd hc (by decide)
        | cons q2 t2' =>
          simp only [pairsTail, pairEnc, List.cons_append, List.append_assoc] at h
          injection h with _ h
          injection h with _ h
          rcases split_at_quote hp1.1 hp2.1 h with ⟨hk, h⟩
          injection h with _ h
          injection h with _ h
          injection h with _ h
          rcases split_at_quote hp1.2 hp2.2 h with ⟨hv, h⟩
          injection h with _ h
          injection h with _ h
          injection h with _ h
          rcases ih (q2 :: t2') r1 r2 ht1 ht2 h with ⟨hts, hres⟩
          exact ⟨by rw [Prod.ext hk hv, hts], hres⟩

theorem map_escStr_plain_inj : ∀ {l1 l2 : List String},
    (∀ s ∈ l1, plainStr s) → (∀ s ∈ l2, plainStr s) →
    l1.map escStr = l2.map escStr → l1 = l2 := by
  intro l1
  induction l1 with
  | nil =>
    intro l2 _ _ h
    cases l2 with
    | nil => rfl
    | cons s2 t2 => simp at h
  | cons s1 t1 ih =>
    intro l2 h1 h2 h
    cases l2 with
    | nil => simp at h
    | cons s2 t2 =>
      simp only [List.map_cons, List.cons.injEq] at h
      rcases h with ⟨hs, ht⟩
      have hss : s1 = s2 := by
        rw [escStr_plain (h1 s1 (List.mem_cons_self _ _)),
          escStr_plain (h2 s2 (List.mem_cons_self _ _))] at hs
        cases s1
        cases s2
        exact congrArg String.mk hs
      rw [hss, ih (fun s hs' => h1 s (List.mem_cons_of_mem _ hs'))
        (fun s hs' => h2 s (List.mem_cons_of_mem _ hs')) ht]

theorem map_pairEsc_plain_inj : ∀ {l1 l2 : List (String × String)},
    (∀ p ∈ l1, plainStr p.1 ∧ plainStr p.2) →
    (∀ p ∈ l2, plainStr p.1 ∧ plainStr p.2) →
    l1.map (fun p => (escStr p.1, escStr p.2)) =
      l2.map (fun p => (escStr p.1, escStr p.2)) → l1 = l2 := by
  intro l1
  induction l1 with
  | nil =>
    intro l2 _ _ h
    cases l2 with
    | nil => rfl
    | cons p2 t2 => simp at h
  | cons p1 t1 ih =>
    intro l2 h1 h2 h
    cases l2 with
    | nil => simp at h
    | cons p2 t2 =>
      simp only [List.map_cons, List.cons.injEq, Prod.mk.injEq] at h
      rcases h with ⟨⟨hk, hv⟩, ht⟩
      have hm1 := h1 p1 (List.mem_cons_self _ _)
      have hm2 := h2 p2 (List.mem_cons_self _ _)
      rw [escStr_plain hm1.1, escStr_plain hm2.1] at hk
      rw [escStr_plain hm1.2, escStr_plain hm2.2] at hv
      have hpp : p1 = p2 := by
        apply Prod.ext
        · rcases hp1 : p1.1 with ⟨d1⟩
          rcases hp2 : p2.1 with ⟨d2⟩
          rw [hp1, hp2] at hk
          exact congrArg String.mk hk
        · rcases hp1 : p1.2 with ⟨d1⟩
          rcases hp2 : p2.2 with ⟨d2⟩
          rw [hp1, hp2] at hv
          exact congrArg String.mk hv
      rw [hpp, ih (fun p hp => h1 p (List.mem_cons_of_mem _ hp))
        (fun p hp => h2 p (List.mem_cons_of_mem _ hp)) ht]

/-- Equal serialized payloads (over plain identifiers) force equal ordered
args and equal keyword-item sets (after sorting). -/
theorem keyPayload_inj {a1 a2 : List String} {kw1 kw2 : List (String × String)}
    (ha1 : ∀ s ∈ a1, plainStr s) (ha2 : ∀ s ∈ a2, plainStr s)
    (hk1 : ∀ p ∈ kw1, plainStr p.1 ∧ plainStr p.2)
    (hk2 : ∀ p ∈ kw2, plainStr p.1 ∧ plainStr p.2)
    (h : keyPayload a1 kw1 = keyPayload a2 kw2) :
    a1 = a2 ∧ sortKW kw1 = sortKW kw2 := by
  have hd : '{' :: ("\"args\": ".data ++ (argsEnc a1 ++
      (", \"kwargs\": ".data ++ (kwEnc kw1 ++ ['}'])))) =
      '{' :: ("\"args\": ".data ++ (argsEnc a2 ++
      (", \"kwargs\": ".data ++ (kwEnc kw2 ++ ['}'])))) :=
    congrArg String.data h
  injection hd with _ hd
  have hd := List.append_cancel_left hd
  simp only [argsEnc, List.cons_append] at hd
  injection hd with _ hd
  have hqa1 : ∀ x ∈ a1.map escStr, '"' ∉ x := by
    intro x hx
    rcases List.mem_map.mp hx with ⟨s, hs, rfl⟩
    rw [escStr_plain (ha1 s hs)]
    exact quote_not_mem_plain (ha1 s hs)
  have hqa2 : ∀ x ∈ a2.map escStr, '"' ∉ x := by
    intro x hx
    rcases List.mem_map.mp hx with ⟨s, hs, rfl⟩
    rw [escStr_plain (ha2 s hs)]
    exact quote_not_mem_plain (ha2 s hs)
  rcases strsTail_prefix_inj _ _ _ _ hqa1 hqa2 hd with ⟨hmap, hrest⟩
  have hargs : a1 = a2 := map_escStr_plain_inj ha1 ha2 hmap
  simp only [List.cons.injEq, List.nil_append, eq_self_iff_true, true_and] at hrest
  have hkw : kwEnc kw1 = kwEnc kw2 := List.append_cancel_right hrest
  refine ⟨hargs, ?_⟩
  have hs1 : ∀ p ∈ sortKW kw1, plainStr p.1 ∧ plainStr p.2 :=
    fun p hp => hk1 p ((List.perm_insertionSort kvLe kw1).mem_iff.mp hp)
  have hs2 : ∀ p ∈ sortKW kw2, plainStr p.1 ∧ plainStr p.2 :=
    fun p hp => hk2 p ((List.perm_insertionSort kvLe kw2).mem_iff.mp hp)
  unfold kwEnc at hkw
  by_cases e1 : kw1 = []
  · by_cases e2 : kw2 = []
    · rw [e1, e2]
    · exfalso
      rw [if_pos e1, if_neg e2] at hkw
      injection hkw with hc _
      exact absurd hc (by decide)
  · by_cases e2 : kw2 = []
    · exfalso
      rw [if_neg e1, if_pos e2] at hkw
      injection hkw with hc _
      exact absurd hc (by decide)
    · rw [if_neg e1, if_neg e2] at hkw
      injection hkw with _ hkw
      have hq1 : ∀ q ∈ (sortKW kw1).map (fun p => (escStr p.1, escStr p.2)),
          '"' ∉ q.1 ∧ '"' ∉ q.2 := by
        intro q hq
        rcases List.mem_map.mp hq with ⟨p, hp, rfl⟩
        rcases hs1 p hp with ⟨hpk, hpv⟩
        exact ⟨by rw [escStr_plain hpk]; exact quote_not_mem_plain hpk,
          by rw [escStr_plain hpv]; exact quote_not_mem_plain hpv⟩
      have hq2 : ∀ q ∈ (sortKW kw2).map (fun p => (escStr p.1, escStr p.2)),
          '"' ∉ q.1 ∧ '"' ∉ q.2 := by
        intro q hq
        rcases List.mem_map.mp hq with ⟨p, hp, rfl⟩
        rcases hs2 p hp with ⟨hpk, hpv⟩
        exact ⟨by rw [escStr_plain hpk]; exact quote_not_mem_plain hpk,
          by rw [escStr_plain hpv]; exact quote_not_mem_plain hpv⟩
      have hkw' : pairsTail ((sortKW kw1).map fun p => (escStr p.1, escStr p.2)) ++
          ([] : List Char) =
          pairsTail ((sortKW kw2).map fun p => (escStr p.1, escStr p.2)) ++ [] := by
        rw [List.append_nil, List.append_nil]
        exact hkw
      rcases pairsTail_prefix_inj _ _ _ _ hq1 hq2 hkw' with ⟨hmap2, _⟩
      exact map_pairEsc_plain_inj hs1 hs2 hmap2

/-- Sorting is invariant under permutation of the keyword items. -/
theorem sortKW_perm_eq {kw1 kw2 : List (String × String)} (h : kw1.Perm kw2) :
    sortKW kw1 = sortKW kw2 :=
  List.eq_of_perm_of_sorted
    ((List.perm_insertionSort kvLe kw1).trans
      (h.trans (List.perm_insertionSort kvLe kw2).symm))
    (List.sorted_insertionSort kvLe kw1)
    (List.sorted_insertionSort kvLe kw2)

/-! ### Claim C7: key determinism -/

/-- C7: the key builder is a pure deterministic function — equal ordered
positional arguments with equal keyword-item sets (the items are sorted, so
insertion order is irrelevant) give identical keys for every digest
function; and over plain (printable-ASCII, quote- and backslash-free)
identifiers the serialized payload is injective, so inputs differing in any
component give different payloads and hence different keys except for a
digest collision. -/
theorem generate_cache_key_deterministic :
    (∀ (digest : String → String) (args : List String)
      (kw1 kw2 : List (String × String)), kw1.Perm kw2 →
      generate_cache_key digest args kw1 = generate_cache_key digest args kw2) ∧
    (∀ (a1 a2 : List String) (kw1 kw2 : List (String × String)),
      (∀ s ∈ a1, plainStr s) → (∀ s ∈ a2, plainStr s) →
      (∀ p ∈ kw1, plainStr p.1 ∧ plainStr p.2) →
      (∀ p ∈ kw2, plainStr p.1 ∧ plainStr p.2) →
      keyPayload a1 kw1 = keyPayload a2 kw2 →
      a1 = a2 ∧ sortKW kw1 = sortKW kw2) := by
  refine ⟨?_, fun a1 a2 kw1 kw2 ha1 ha2 hk1 hk2 h =>
    keyPayload_inj ha1 ha2 hk1 hk2 h⟩
  intro digest args kw1 kw2 hp
  unfold generate_cache_key
  have hk : kwEnc kw1 = kwEnc kw2 := by
    unfold kwEnc
    by_cases e1 : kw1 = []
    · have e2 : kw2 = [] := by
        subst e1
        exact hp.symm.eq_nil
      rw [if_pos e1, if_pos e2]
    · have e2 : kw2 ≠ [] := by
        intro hn
        rw [hn] at hp
        exact e1 hp.eq_nil
      rw [if_neg e1, if_neg e2, sortKW_perm_eq hp]
  unfold keyPayload
  rw [hk]

/-- The concrete manager argument patterns of `_generate_cache_key`. -/
def c7kw1 : List (String × String) := [("b", "2"), ("a", "1")]

/-- `c7kw1` with its items in the other insertion order. -/
def c7kw2 : List (String × String) := [("a", "1"), ("b", "2")]

theorem generate_cache_key_witness :
    (c7kw1.Perm c7kw2 ∧
      (∀ s ∈ ["m"], plainStr s) ∧
      (∀ p ∈ c7kw1, plainStr p.1 ∧ plainStr p.2) ∧
      keyPayload ["m"] c7kw1 = keyPayload ["m"] c7kw2) ∧
    generate_cache_key id ["m"] c7kw1 = generate_cache_key id ["m"] c7kw2 ∧
    (["m"] = ["m"] ∧ sortKW c7kw1 = sortKW c7kw2) :=
  ⟨⟨List.Perm.swap ("a", "1") ("b", "2") [], by decide, by decide, by decide⟩,
    generate_cache_key_deterministic.1 id ["m"] c7kw1 c7kw2
      (List.Perm.swap ("a", "1") ("b", "2") []),
    generate_cache_key_deterministic.2 ["m"] ["m"] c7kw1 c7kw2
      (by decide) (by decide) (by decide) (by decide) (by decide)⟩

/-! ### The memoization decorator `cache_memoize`

`cache_memoize(ttl)` wraps a function; each call builds the key
`f"{func.__name__}:{hash(str(args) + str(sorted(kwargs.items()))) % 1000000}"`,
returns the stored result if an entry under that key is younger than `ttl`
seconds (counted from when it was *computed*), and otherwise invokes the
function and stores `(result, now)`.  Only the `cache_instance=None` path is
modelled: the wrapper's own `_temp_cache` dict (passing a
`MedicalCacheManager` would raise `TypeError` at `cache_key in cache`).
CPython's string hash is salted per process, so the model takes it as the
parameter `pyHash`; arguments are modelled as string tuples. -/

/-- Python `repr` of one of our plain identifier strings (single quotes;
the identifiers contain no quotes or backslashes to escape). -/
def pyReprStr (s : String) : String := "'" ++ (s ++ "'")

/-- The tail of Python's `str` of a tuple, after the first element. -/
def tupleTail : List String → String
  | [] => ")"
  | s :: t => ", " ++ (pyReprStr s ++ tupleTail t)

/-- Python `str(args)` for a tuple of strings (note the one-element tuple's
trailing comma). -/
def pyStrTuple : List String → String
  | [] => "()"
  | [s] => "(" ++ (pyReprStr s ++ ",)")
  | s :: t => "(" ++ (pyReprStr s ++ tupleTail t)

/-- Python `str` of one `(key, value)` item tuple. -/
def pairStr (p : String × String) : String :=
  "(" ++ (pyReprStr p.1 ++ (", " ++ (pyReprStr p.2 ++ ")")))

/-- The tail of Python's `str` of a list of item tuples. -/
def pairListTail : List (String × String) → String
  | [] => "]"
  | p :: t => ", " ++ (pairStr p ++ pairListTail t)

/-- Python `str` of a list of item tuples (`str(sorted(kwargs.items()))`
once applied to the sorted items). -/
def pyStrPairs : List (String × String) → String
  | [] => "[]"
  | p :: t => "[" ++ (pairStr p ++ pairListTail t)

/-- The wrapper's cache key: the function name and the Python string hash
of `str(args) + str(sorted(kwargs.items()))`, reduced mod `1000000`. -/
def memoKey (pyHash : String → ℕ) (fname : String) (args : List String)
    (kwargs : List (String × String)) : String :=
  fname ++ (":" ++
    toString (pyHash (pyStrTuple args ++ pyStrPairs (sortKW kwargs)) % 1000000))

/-- Lookup in the wrapper's private dict (`cache_key in cache` plus the
read of `cache[cache_key]`). -/
def memoLookup : List (String × PyVal × ℤ) → String → Option (PyVal × ℤ)
  | [], _ => none
  | (k, v, t) :: es, key => if k = key then some (v, t) else memoLookup es key

/-- `cache[cache_key] = (result, current_time)`: overwrite or append. -/
def memoStore : List (String × PyVal × ℤ) → String → PyVal → ℤ →
    List (String × PyVal × ℤ)
  | [], key, v, t => [(key, v, t)]
  | (k, v0, t0) :: es, key, v, t =>
    if k = key then (key, v, t) :: es else (k, v0, t0) :: memoStore es key v t

/-- One call through the `cache_memoize(ttl)` wrapper of `f`: the result,
the updated private cache, and whether `f` was invoked. -/
def cache_memoize_call (pyHash : String → ℕ) (fname : String) (ttl : ℤ)
    (f : List String → List (String × String) → PyVal)
    (store : List (String × PyVal × ℤ)) (args : List String)
    (kwargs : List (String × String)) (now : ℤ) :
    PyVal × List (String × PyVal × ℤ) × Bool :=
  let key := memoKey pyHash fname args kwargs
  match memoLookup store key with
  | some (r, ts) =>
    if now - ts < ttl then (r, store, false)
    else (f args kwargs, memoStore store key (f args kwargs) now, true)
  | none => (f args kwargs, memoStore store key (f args kwargs) now, true)

/-! ### Claim C8: memoization semantics -/

/-- C8 (amended): a call whose derived key holds an entry computed less
than `ttl` seconds earlier returns that stored result without invoking the
computation — in particular any call with arguments structurally equal to a
previous call's within the window, since equal arguments (up to keyword
order) give equal keys; otherwise the computation is invoked, its result is
stored with the computation time, and returned.  Because the key reduces a
string hash mod `1000000`, *different* arguments may share a key, in which
case the colliding entry's result is returned without invocation. -/
theorem cache_memoize_semantics (pyHash : String → ℕ) (fname : String)
    (ttl : ℤ) (f : List String → List (String × String) → PyVal)
    (store : List (String × PyVal × ℤ)) (args : List String)
    (kwargs : List (String × String)) (now : ℤ) :
    (∀ args' kwargs', args = args' → kwargs.Perm kwargs' →
      memoKey pyHash fname args kwargs = memoKey pyHash fname args' kwargs') ∧
    (∀ r ts,
      memoLookup store (memoKey pyHash fname args kwargs) = some (r, ts) →
      now - ts < ttl →
      cache_memoize_call pyHash fname ttl f store args kwargs now =
        (r, store, false)) ∧
    (∀ r ts,
      memoLookup store (memoKey pyHash fname args kwargs) = some (r, ts) →
      ¬ now - ts < ttl →
      cache_memoize_call pyHash fname ttl f store args kwargs now =
        (f args kwargs,
          memoStore store (memoKey pyHash fname args kwargs) (f args kwargs) now,
          true)) ∧
    (memoLookup store (memoKey pyHash fname args kwargs) = none →
      cache_memoize_call pyHash fname ttl f store args kwargs now =
        (f args kwargs,
          memoStore store (memoKey pyHash fname args kwargs) (f args kwargs) now,
          true)) := by
  refine ⟨?_, ?_, ?_, ?_⟩
  · intro args' kwargs' ha hkw
    subst ha
    unfold memoKey
    rw [sortKW_perm_eq hkw]
  · intro r ts hl hf
    show (let key := memoKey pyHash fname args kwargs;
      match memoLookup store key with
      | some (r, ts) =>
        if now - ts < ttl then (r, store, false)
        else (f args kwargs, memoStore store key (f args kwargs) now, true)
      | none => (f args kwargs, memoStore store key (f args kwargs) now, true)) = _
    simp only [hl, if_pos hf]
  · intro r ts hl hf
    show (let key := memoKey pyHash fname args kwargs;
      match memoLookup store key with
      | some (r, ts) =>
        if now - ts < ttl then (r, store, false)
        else (f args kwargs, memoStore store key (f args kwargs) now, true)
      | none => (f args kwargs, memoStore store key (f args kwargs) now, true)) = _
    simp only [hl, if_neg hf]
  · intro hl
    show (let key := memoKey pyHash fname args kwargs;
      match memoLookup store key with
      | some (r, ts) =>
        if now - ts < ttl then (r, store, false)
        else (f args kwargs, memoStore store key (f args kwargs) now, true)
      | none => (f args kwargs, memoStore store key (f args kwargs) now, true)) = _
    simp only [hl]

/-- The wrapped computation of the counterexample: return the first
positional argument as a value. -/
def c8f : List String → List (String × String) → PyVal :=
  fun args _ => PyVal.str (args.headD "")

/-- The wrapper's private cache after the first call (`args = ("x",)`,
time 0) under the constant hash. -/
def c8store1 : List (String × PyVal × ℤ) :=
  (cache_memoize_call (fun _ => 0) "g" 10 c8f [] ["x"] [] 0).2.1

/-- C8 (counterexample to the claim as stated): under a hash collision
(exhibited with a constant hash — CPython's salted string hash collides on
infinitely many pairs by pigeonhole, `10^6` buckets), a call whose
arguments differ from every previous call's returns the colliding entry's
stored result without invoking the computation, instead of computing
`f ["y"]`. -/
theorem memoize_collision_counterexample :
    ["y"] ≠ ["x"] ∧
    cache_memoize_call (fun _ => 0) "g" 10 c8f [] ["x"] [] 0 =
      (PyVal.str "x", c8store1, true) ∧
    cache_memoize_call (fun _ => 0) "g" 10 c8f c8store1 ["y"] [] 1 =
      (PyVal.str "x", c8store1, false) ∧
    c8f ["y"] [] = PyVal.str "y" ∧
    PyVal.str "x" ≠ PyVal.str "y" := by
  decide

theorem cache_memoize_semantics_witness :
    (memoLookup [] (memoKey (fun _ => 0) "g" ["x"] []) = none ∧
      memoLookup c8store1 (memoKey (fun _ => 0) "g" ["y"] []) =
        some (PyVal.str "x", 0) ∧
      (1 : ℤ) - 0 < 10) ∧
    cache_memoize_call (fun _ => 0) "g" 10 c8f [] ["x"] [] 0 =
      (c8f ["x"] [],
        memoStore [] (memoKey (fun _ => 0) "g" ["x"] []) (c8f ["x"] []) 0,
        true) ∧
    cache_memoize_call (fun _ => 0) "g" 10 c8f c8store1 ["y"] [] 1 =
      (PyVal.str "x", c8store1, false) :=
  ⟨⟨by decide, by decide, by decide⟩,
    (cache_memoize_semantics (fun _ => 0) "g" 10 c8f [] ["x"] [] 0).2.2.2
      (by decide),
    (cache_memoize_semantics (fun _ => 0) "g" 10 c8f c8store1 ["y"] [] 1).2.1
      (PyVal.str "x") 0 (by decide) (by decide)⟩

end CuraVox
